import Mathlib

/-!
Verification of the Edmonds-Karp maximum-flow solver of this repository
(`bfs` and `edmonds_karp` in `code_1.py` / `code_no_plot.py`; `code.py` holds
an equivalent NetworkX-based variant of the same algorithm).

The embedding is a direct shallow translation of the matrix-based solver:

* a capacity / residual matrix is a function `Nat → Nat → Int` (the Python
  code uses an `n × n` list of lists of ints; entries outside the `n × n`
  block are irrelevant and never consulted);
* `bfs` threads an explicit state (visited array, parent array, FIFO queue)
  instead of mutating Python lists in place; the `while queue` loop is run
  on fuel `n + 1`, which is proved sufficient (each dequeue either visits
  fresh nodes or shortens the queue);
* the two parent-walk `while v != source` loops of `edmonds_karp` (bottleneck
  computation and augmentation) are run on fuel `n + 1`, likewise proved
  sufficient for every parent array BFS can produce;
* the Python initialisation `path_flow = float('inf')` is rendered as an
  `Option Int` accumulator (`none` = infinity); the main loop reads it with
  default `0`, and it is proved to always be `some _` when BFS found a path;
* the outer `while bfs(...)` loop runs on fuel `1 + Σ_v capacity[source][v]⁺`,
  an upper bound on the number of augmentations that is proved sufficient.
-/

/-- An integer matrix indexed by naturals; the solver only ever reads and
writes the `n × n` block. Mirrors the Python list-of-lists capacity and
residual matrices. -/
abbrev Mat : Type := Nat → Nat → Int

/-- Pointwise array update, mirroring a Python list assignment `a[i] = x`. -/
def upd {α : Type} (f : Nat → α) (i : Nat) (x : α) : Nat → α :=
  fun j => if j = i then x else f j

/-- The mutable state of the Python `bfs` function: the `visited` list, the
`parent` list (entries are node indices or `-1`), and the FIFO `queue`
(a `deque` popped at the head, appended at the tail). -/
structure BfsState where
  visited : Nat → Bool
  parent : Nat → Int
  queue : List Nat

/-- The body of the inner `for v, cap in enumerate(residual[u])` loop of
`bfs` (code_no_plot.py lines 26-33): scan the remaining neighbour indices
`vs`; an unvisited `v` with positive residual is recorded and enqueued, and
reaching the sink returns `True` immediately. -/
def bfsScan (R : Mat) (sink u : Nat) : List Nat → BfsState → BfsState × Bool
  | [], st => (st, false)
  | v :: vs, st =>
    if st.visited v = false ∧ 0 < R u v then
      if v = sink then
        ({ visited := upd st.visited v true
           parent := upd st.parent v (Int.ofNat u)
           queue := st.queue ++ [v] }, true)
      else
        bfsScan R sink u vs
          { visited := upd st.visited v true
            parent := upd st.parent v (Int.ofNat u)
            queue := st.queue ++ [v] }
    else bfsScan R sink u vs st

/-- The `while queue:` loop of `bfs` (code_no_plot.py lines 23-33), on fuel:
pop the head `u`, scan its neighbours, stop as soon as the sink is found.
Fuel `n + 1` is sufficient (lemma `bfsLoop_main`). -/
def bfsLoop (R : Mat) (n sink : Nat) : Nat → BfsState → BfsState × Bool
  | 0, st => (st, false)
  | Nat.succ fuel, st =>
    match st.queue with
    | [] => (st, false)
    | u :: qs =>
      match bfsScan R sink u (List.range n) { st with queue := qs } with
      | (st', true) => (st', true)
      | (st', false) => bfsLoop R n sink fuel st'

/-- The Python `bfs(residual, source, sink, parent)` (code_no_plot.py lines
11-35): mark the source visited, set `parent[source] = -1`, run the queue
loop. The caller's parent array is threaded in, as in the Python code, and
the updated parent array is returned inside the state. -/
def bfs (R : Mat) (n source sink : Nat) (parent : Nat → Int) : BfsState × Bool :=
  bfsLoop R n sink (n + 1)
    { visited := upd (fun _ => false) source true
      parent := upd parent source (-1)
      queue := [source] }

/-- Min-accumulator used to describe the bottleneck walk: `none` is the
initial `float('inf')`. -/
def optMin (acc : Option Int) (x : Int) : Int :=
  match acc with
  | none => x
  | some a => min a x

/-- The first `while v != source` walk of `edmonds_karp` (code_no_plot.py
lines 53-58): walk the parent pointers from the sink accumulating
`min(path_flow, residual[u][v])`; `none` plays the role of the initial
`float('inf')`. -/
def path_flow_walk (residual : Mat) (parent : Nat → Int) (source : Nat) :
    Nat → Nat → Option Int → Option Int
  | 0, _, acc => acc
  | Nat.succ fuel, v, acc =>
    if v = source then acc
    else
      path_flow_walk residual parent source fuel (parent v).toNat
        (some (optMin acc (residual (parent v).toNat v)))

/-- One augmentation update on one edge `(u, v)`: first
`residual[u][v] -= f`, then `residual[v][u] += f`, the two sequential
writes of code_no_plot.py lines 65-66. -/
def applyEdge (r : Mat) (e : Nat × Nat) (f : Int) : Mat :=
  fun a b =>
    if a = e.2 ∧ b = e.1 then (if a = e.1 ∧ b = e.2 then r a b - f else r a b) + f
    else (if a = e.1 ∧ b = e.2 then r a b - f else r a b)

/-- The second `while v != source` walk of `edmonds_karp` (code_no_plot.py
lines 62-67): `residual[u][v] -= f; residual[v][u] += f` along the parent
chain. -/
def augment_walk (residual : Mat) (parent : Nat → Int) (source : Nat) (f : Int) :
    Nat → Nat → Mat
  | 0, _ => residual
  | Nat.succ fuel, v =>
    if v = source then residual
    else
      augment_walk (applyEdge residual ((parent v).toNat, v) f) parent source f
        fuel (parent v).toNat

/-- Apply the augmentation update along a list of edges: the list-level
description of `augment_walk`. -/
def listAugment (r : Mat) (es : List (Nat × Nat)) (f : Int) : Mat :=
  es.foldl (fun r' e => applyEdge r' e f) r

/-- The state of the `edmonds_karp` main loop: the residual matrix
(initialised as a copy of the capacity matrix), the threaded parent array,
and the accumulated total flow. -/
structure EKState where
  residual : Mat
  parent : Nat → Int
  max_flow : Int

/-- One iteration of the `while bfs(...)` loop of `edmonds_karp`
(code_no_plot.py lines 51-71): run BFS; on success compute the bottleneck,
augment the residual matrix along the path and accumulate the flow. The
returned boolean is the value of the loop guard. -/
def ekStep (n source sink : Nat) (st : EKState) : EKState × Bool :=
  match bfs st.residual n source sink st.parent with
  | (bst, true) =>
    let pf : Int := (path_flow_walk st.residual bst.parent source (n + 1) sink none).getD 0
    let residual' := augment_walk st.residual bst.parent source pf (n + 1) sink
    (⟨residual', bst.parent, st.max_flow + pf⟩, true)
  | (bst, false) => (⟨st.residual, bst.parent, st.max_flow⟩, false)

/-- The `while bfs(...)` main loop of `edmonds_karp`, on fuel. -/
def ekLoop (n source sink : Nat) : Nat → EKState → EKState
  | 0, st => st
  | Nat.succ fuel, st =>
    match ekStep n source sink st with
    | (st', true) => ekLoop n source sink fuel st'
    | (st', false) => st'

/-- The initial state of `edmonds_karp` (code_no_plot.py lines 43-47):
`residual = [row[:] for row in capacity]` (a copy — the embedding's value
semantics reflects that the capacity argument itself is never written),
`parent = [-1] * n`, `max_flow = 0`. -/
def ekInit (capacity : Mat) : EKState :=
  ⟨capacity, fun _ => -1, 0⟩

/-- Fuel for the main loop: one more than the sum of the positive parts of
the capacities leaving the source. Each augmentation pushes at least one
unit out of the source row of the residual matrix, so this many iterations
always reach the `bfs = False` exit (theorem `ekIter_stops`). -/
def ekFuel (capacity : Mat) (n source : Nat) : Nat :=
  1 + ((List.range n).map (fun v => (capacity source v).toNat)).sum

/-- The solver `edmonds_karp(capacity, source, sink)` of code_1.py (lines
36-69): returns the total flow together with the flow matrix
`capacity[u][v] - residual[u][v]` (code_1.py line 69). The variant in
code_no_plot.py returns only the first component. -/
def edmonds_karp (capacity : Mat) (n source sink : Nat) : Int × Mat :=
  let st := ekLoop n source sink (ekFuel capacity n source) (ekInit capacity)
  (st.max_flow, fun u v => capacity u v - st.residual u v)

/-- The iteration trace of the main loop: `ekIter k` is the loop state after
`k` iterations together with the current value of the loop guard; once the
guard turns false the state is frozen. This exposes the intermediate states
of the very same `ekStep` the solver runs. -/
def ekIter (capacity : Mat) (n source sink : Nat) : Nat → EKState × Bool
  | 0 => (ekInit capacity, true)
  | Nat.succ k =>
    match ekIter capacity n source sink k with
    | (st, true) => ekStep n source sink st
    | (st, false) => (st, false)

/-- Build a matrix from a list of rows (missing entries read as `0`), for
concrete test inputs. -/
def matOf (rows : List (List Int)) : Mat :=
  fun u v => ((rows.getD u []).getD v 0)

/-- A path in the residual graph `R` on nodes `0..n-1` from `s` to `t`
along edges of strictly positive residual capacity, listed as its sequence
of nodes. -/
def IsPath (R : Mat) (n : Nat) (p : List Nat) (s t : Nat) : Prop :=
  p.head? = some s ∧ p.getLast? = some t ∧ (∀ v ∈ p, v < n) ∧
    List.Chain' (fun a b => 0 < R a b) p

/-- `PathDist R n s t d` holds when the shortest positive-residual path from
`s` to `t` has exactly `d` edges (`d + 1` nodes). -/
def PathDist (R : Mat) (n : Nat) (s t d : Nat) : Prop :=
  (∃ p, IsPath R n p s t ∧ p.length = d + 1) ∧
    ∀ p, IsPath R n p s t → d + 1 ≤ p.length

/-- Reconstruct the path recorded in a parent array by walking backwards
from `v` (the list is returned in source-to-`v` order), on fuel. This is
the path the two `while v != source` walks of `edmonds_karp` traverse. -/
def parentChain (parent : Nat → Int) (source : Nat) : Nat → Nat → Option (List Nat)
  | 0, v => if v = source then some [source] else none
  | Nat.succ fuel, v =>
    if v = source then some [source]
    else (parentChain parent source fuel (parent v).toNat).map (fun p => p ++ [v])

/-- The consecutive edge pairs of a node list. -/
def pedges : List Nat → List (Nat × Nat)
  | [] => []
  | [_] => []
  | a :: b :: rest => (a, b) :: pedges (b :: rest)

/-- Validity of a solver input, as stated by the spec's input contract:
a non-negative `n × n` capacity matrix and in-range distinct endpoints. -/
def ValidInput (capacity : Mat) (n source sink : Nat) : Prop :=
  (∀ u v, u < n → v < n → 0 ≤ capacity u v) ∧
    source < n ∧ sink < n ∧ source ≠ sink

/-- Non-negativity of the `n × n` block of a matrix. -/
def NonnegOn (R : Mat) (n : Nat) : Prop :=
  ∀ u v, u < n → v < n → 0 ≤ R u v

/-- The residual/capacity pair-sum invariant: every augmentation moves
capacity between `R[u][v]` and `R[v][u]` but preserves their sum. -/
def PairSum (R capacity : Mat) (n : Nat) : Prop :=
  ∀ u v, u < n → v < n → R u v + R v u = capacity u v + capacity v u

/-- Flow conservation of the derived flow matrix `capacity - R` at every
node other than `source` and `sink`. -/
def Conserved (R capacity : Mat) (n source sink : Nat) : Prop :=
  ∀ w, w < n → w ≠ source → w ≠ sink →
    (Finset.range n).sum (fun v => capacity v w - R v w) =
      (Finset.range n).sum (fun v => capacity w v - R w v)

/-- The running invariant of the `edmonds_karp` main loop. -/
def EKInv (capacity : Mat) (n source sink : Nat) (st : EKState) : Prop :=
  NonnegOn st.residual n ∧ PairSum st.residual capacity n ∧
    Conserved st.residual capacity n source sink

/-- The net flow `capacity - R` clamped at zero: the non-negative net flow
pushed from `u` to `v` so far, as in spec §3 ("derived as
`capacity(u,v) - R[u][v]`"). -/
def flowAt (R capacity : Mat) (u v : Nat) : Int :=
  max (capacity u v - R u v) 0

/-- Scenario A of the spec as a 5-node capacity matrix: nodes
`S=0, A=1, B=2, T=3` (node 4 isolated), edges `S→A=10, S→B=5, A→B=15,
A→T=10, B→T=10`. -/
def scenarioA : Mat :=
  matOf [[0, 10, 5, 0, 0], [0, 0, 15, 10, 0], [0, 0, 0, 10, 0], [0, 0, 0, 0, 0], [0, 0, 0, 0, 0]]

/-- The main-loop variant: total residual capacity (positive part) left in
the source row. Every augmentation removes at least one unit from it. -/
def ekVariant (n source : Nat) (st : EKState) : Nat :=
  (Finset.range n).sum (fun v => (st.residual source v).toNat)

/-- The BFS loop variant: number of unvisited nodes plus queue length.
Each dequeue decreases it by exactly one. -/
def bfsMeasure (n : Nat) (st : BfsState) : Nat :=
  (List.range n).countP (fun v => !st.visited v) + st.queue.length

/-- The invariant of the BFS queue loop. `chains` says every visited node
carries a parent chain that is a shortest positive-residual path from the
source whose `i`-th node is at BFS distance exactly `i`; `queue_sorted` and
`queue_twolevel` say the queue holds nodes of at most two consecutive BFS
distances in non-decreasing order; `closed` says every dequeued node has
all its positive-residual neighbours visited. -/
structure BfsInv (R : Mat) (n source sink : Nat) (st : BfsState) : Prop where
  vis_source : st.visited source = true
  vis_sink : st.visited sink = false
  queue_lt : ∀ u ∈ st.queue, u < n
  queue_vis : ∀ u ∈ st.queue, st.visited u = true
  queue_nodup : st.queue.Nodup
  chains : ∀ v, st.visited v = true →
    ∃ p, parentChain st.parent source n v = some p ∧ IsPath R n p source v ∧
      (∀ w ∈ p, st.visited w = true) ∧
      ∀ i (h : i < p.length), PathDist R n source (p.get ⟨i, h⟩) i
  queue_sorted : st.queue.Pairwise (fun a b => ∀ da db,
    PathDist R n source a da → PathDist R n source b db → da ≤ db)
  queue_twolevel : ∀ a ∈ st.queue, ∀ b ∈ st.queue, ∀ da db,
    PathDist R n source a da → PathDist R n source b db → db ≤ da + 1
  closed : ∀ x, st.visited x = true → x ∉ st.queue →
    ∀ y, y < n → 0 < R x y → st.visited y = true

/-- What holds of the BFS state when `bfs` returns `True`: the parent array
records a shortest positive-residual path from source to sink whose `i`-th
node is at BFS distance exactly `i`. -/
def BfsFound (R : Mat) (n source sink : Nat) (st : BfsState) : Prop :=
  ∃ p, parentChain st.parent source n sink = some p ∧ IsPath R n p source sink ∧
    ∀ i (h : i < p.length), PathDist R n source (p.get ⟨i, h⟩) i

/-! ### Basic lemmas about `upd` and `parentChain` -/

theorem upd_self {α : Type} (f : Nat → α) (i : Nat) (x : α) : upd f i x i = x := by
  simp [upd]

theorem upd_other {α : Type} (f : Nat → α) (i j : Nat) (x : α) (h : j ≠ i) :
    upd f i x j = f j := by
  simp [upd, h]

theorem parentChain_source (parent : Nat → Int) (source fuel : Nat) :
    parentChain parent source fuel source = some [source] := by
  cases fuel <;> simp [parentChain]

theorem parentChain_getLast {parent : Nat → Int} {source : Nat} :
    ∀ {fuel v p}, parentChain parent source fuel v = some p →
      p ≠ [] ∧ p.getLast? = some v ∧ p.head? = some source := by
  intro fuel
  induction fuel with
  | zero =>
    intro v p h
    by_cases hv : v = source
    · subst hv
      simp [parentChain] at h
      subst h
      simp
    · simp [parentChain, hv] at h
  | succ f ih =>
    intro v p h
    by_cases hv : v = source
    · subst hv
      simp [parentChain] at h
      subst h
      simp
    · simp only [parentChain, if_neg hv, Option.map_eq_some'] at h
      obtain ⟨q, hq, rfl⟩ := h
      obtain ⟨hq1, hq2, hq3⟩ := ih hq
      refine ⟨by simp, by simp, ?_⟩
      rw [List.head?_append_of_ne_nil _ hq1]
      exact hq3

theorem parentChain_length_le {parent : Nat → Int} {source : Nat} :
    ∀ {fuel v p}, parentChain parent source fuel v = some p → p.length ≤ fuel + 1 := by
  intro fuel
  induction fuel with
  | zero =>
    intro v p h
    by_cases hv : v = source
    · subst hv; simp [parentChain] at h; subst h; simp
    · simp [parentChain, hv] at h
  | succ f ih =>
    intro v p h
    by_cases hv : v = source
    · subst hv; simp [parentChain] at h; subst h; simp
    · simp only [parentChain, if_neg hv, Option.map_eq_some'] at h
      obtain ⟨q, hq, rfl⟩ := h
      have := ih hq
      simp
      omega

theorem parentChain_grow {parent : Nat → Int} {source : Nat} :
    ∀ {fuel fuel' v p}, parentChain parent source fuel v = some p → fuel ≤ fuel' →
      parentChain parent source fuel' v = some p := by
  intro fuel
  induction fuel with
  | zero =>
    intro fuel' v p h _
    by_cases hv : v = source
    · subst hv
      simp [parentChain] at h
      subst h
      exact parentChain_source parent v fuel'
    · simp [parentChain, hv] at h
  | succ f ih =>
    intro fuel' v p h hle
    by_cases hv : v = source
    · subst hv
      simp [parentChain] at h
      subst h
      exact parentChain_source parent v fuel'
    · simp only [parentChain, if_neg hv, Option.map_eq_some'] at h
      obtain ⟨q, hq, rfl⟩ := h
      obtain ⟨f', rfl⟩ : ∃ f', fuel' = f' + 1 := ⟨fuel' - 1, by omega⟩
      have := @ih f' ((parent v).toNat) q hq (by omega)
      simp only [parentChain, if_neg hv, this, Option.map_some']

theorem parentChain_shrink {parent : Nat → Int} {source : Nat} :
    ∀ {fuel fuel' v p}, parentChain parent source fuel v = some p →
      p.length ≤ fuel' + 1 → parentChain parent source fuel' v = some p := by
  intro fuel
  induction fuel with
  | zero =>
    intro fuel' v p h _
    by_cases hv : v = source
    · subst hv; simp [parentChain] at h; subst h
      exact parentChain_source parent v fuel'
    · simp [parentChain, hv] at h
  | succ f ih =>
    intro fuel' v p h hlen
    by_cases hv : v = source
    · subst hv; simp [parentChain] at h; subst h
      exact parentChain_source parent v fuel'
    · simp only [parentChain, if_neg hv, Option.map_eq_some'] at h
      obtain ⟨q, hq, rfl⟩ := h
      have hqn : q ≠ [] := (parentChain_getLast hq).1
      have hql : 1 ≤ q.length := List.length_pos.mpr hqn
      simp only [List.length_append, List.length_cons, List.length_nil] at hlen
      obtain ⟨f'', rfl⟩ : ∃ f'', fuel' = f'' + 1 := ⟨fuel' - 1, by omega⟩
      have := @ih f'' ((parent v).toNat) q hq (by omega)
      simp only [parentChain, if_neg hv, this, Option.map_some']

theorem parentChain_congr {parent parent' : Nat → Int} {source : Nat} :
    ∀ {fuel v p}, parentChain parent source fuel v = some p →
      (∀ w ∈ p, parent' w = parent w) →
      parentChain parent' source fuel v = some p := by
  intro fuel
  induction fuel with
  | zero =>
    intro v p h _
    by_cases hv : v = source
    · subst hv; simpa [parentChain] using h
    · simp [parentChain, hv] at h
  | succ f ih =>
    intro v p h hagree
    by_cases hv : v = source
    · subst hv; simpa [parentChain] using h
    · simp only [parentChain, if_neg hv, Option.map_eq_some'] at h ⊢
      obtain ⟨q, hq, rfl⟩ := h
      have hv' : parent' v = parent v := hagree v (by simp)
      refine ⟨q, ?_, rfl⟩
      rw [hv']
      exact ih hq (fun w hw => hagree w (by simp [hw]))

/-! ### Basic lemmas about `IsPath` and `PathDist` -/

theorem isPath_ne_nil {R : Mat} {n : Nat} {p : List Nat} {s t : Nat}
    (h : IsPath R n p s t) : p ≠ [] := by
  intro hnil
  subst hnil
  simp [IsPath] at h

theorem isPath_single {R : Mat} {n : Nat} {s : Nat} (hs : s < n) :
    IsPath R n [s] s s := by
  refine ⟨rfl, rfl, ?_, by simp⟩
  intro v hv
  simp at hv
  subst hv
  exact hs

theorem isPath_single_eq {R : Mat} {n : Nat} {x s t : Nat}
    (h : IsPath R n [x] s t) : s = x ∧ t = x := by
  obtain ⟨h1, h2, _, _⟩ := h
  simp at h1 h2
  exact ⟨h1.symm, h2.symm⟩

theorem isPath_append_edge {R : Mat} {n : Nat} {p : List Nat} {s u v : Nat}
    (h : IsPath R n p s u) (huv : 0 < R u v) (hv : v < n) :
    IsPath R n (p ++ [v]) s v := by
  obtain ⟨h1, h2, h3, h4⟩ := h
  refine ⟨?_, by simp, ?_, ?_⟩
  · rw [List.head?_append_of_ne_nil _ (isPath_ne_nil ⟨h1, h2, h3, h4⟩)]
    exact h1
  · intro w hw
    rcases List.mem_append.mp hw with hw | hw
    · exact h3 w hw
    · simp at hw; subst hw; exact hv
  · rw [List.chain'_append]
    refine ⟨h4, by simp, ?_⟩
    intro x hx y hy
    simp at hy
    rw [h2] at hx
    simp at hx
    subst hx
    subst hy
    exact huv

theorem isPath_snoc {R : Mat} {n : Nat} {q : List Nat} {s t v : Nat}
    (h : IsPath R n (q ++ [v]) s t) (hq : q ≠ []) :
    ∃ u, q.getLast? = some u ∧ IsPath R n q s u ∧ 0 < R u v ∧ v < n ∧ t = v := by
  obtain ⟨h1, h2, h3, h4⟩ := h
  refine ⟨q.getLast hq, List.getLast?_eq_getLast q hq, ⟨?_, ?_, ?_, ?_⟩, ?_, ?_, ?_⟩
  · rw [List.head?_append_of_ne_nil _ hq] at h1
    exact h1
  · exact List.getLast?_eq_getLast q hq
  · intro w hw
    exact h3 w (List.mem_append.mpr (Or.inl hw))
  · exact (List.chain'_append.mp h4).1
  · have := (List.chain'_append.mp h4).2.2
    exact this (q.getLast hq) (List.getLast?_eq_getLast q hq) v rfl
  · exact h3 v (List.mem_append.mpr (Or.inr (by simp)))
  · simp at h2
    exact h2.symm

theorem pathDist_unique {R : Mat} {n s t d d' : Nat}
    (h : PathDist R n s t d) (h' : PathDist R n s t d') : d = d' := by
  obtain ⟨⟨p, hp, hl⟩, hmin⟩ := h
  obtain ⟨⟨p', hp', hl'⟩, hmin'⟩ := h'
  have := hmin p' hp'
  have := hmin' p hp
  omega

theorem pathDist_exists {R : Mat} {n s t : Nat} (h : ∃ p, IsPath R n p s t) :
    ∃ d, PathDist R n s t d := by
  obtain ⟨p, hp⟩ := h
  have hlen : 1 ≤ p.length := List.length_pos.mpr (isPath_ne_nil hp)
  set S : Set Nat := {d | ∃ q, IsPath R n q s t ∧ q.length = d + 1} with hS
  have hne : S.Nonempty := ⟨p.length - 1, p, hp, by omega⟩
  refine ⟨sInf S, Nat.sInf_mem hne, ?_⟩
  intro q hq
  have hq1 : 1 ≤ q.length := List.length_pos.mpr (isPath_ne_nil hq)
  have : q.length - 1 ∈ S := ⟨q, hq, by omega⟩
  have := Nat.sInf_le this
  omega

theorem pathDist_self {R : Mat} {n s : Nat} (hs : s < n) : PathDist R n s s 0 := by
  refine ⟨⟨[s], isPath_single hs, rfl⟩, ?_⟩
  intro p hp
  exact List.length_pos.mpr (isPath_ne_nil hp)

theorem pathDist_zero {R : Mat} {n s t : Nat} (h : PathDist R n s t 0) : t = s := by
  obtain ⟨⟨p, hp, hl⟩, _⟩ := h
  match p, hl with
  | [x], _ =>
    obtain ⟨hs, ht⟩ := isPath_single_eq hp
    omega

theorem pathDist_le_path {R : Mat} {n s t d : Nat} {p : List Nat}
    (h : PathDist R n s t d) (hp : IsPath R n p s t) : d + 1 ≤ p.length :=
  h.2 p hp

theorem pathDist_pred {R : Mat} {n s t d : Nat} (h : PathDist R n s t (d + 1)) :
    ∃ u, u < n ∧ 0 < R u t ∧ PathDist R n s u d := by
  obtain ⟨⟨p, hp, hl⟩, hmin⟩ := h
  have hpn : p ≠ [] := isPath_ne_nil hp
  have hdl : p.dropLast.length = p.length - 1 := List.length_dropLast p
  have hdecomp : p.dropLast ++ [p.getLast hpn] = p := List.dropLast_append_getLast hpn
  have hqn : p.dropLast ≠ [] := by
    rw [← List.length_pos]
    omega
  rw [← hdecomp] at hp
  obtain ⟨u, hu, hqpath, hedge, hvn, htv⟩ := isPath_snoc hp hqn
  have hql : p.dropLast.length = d + 1 := by omega
  have hun : u < n := by
    refine hqpath.2.2.1 u ?_
    obtain ⟨hne, heq⟩ := List.mem_getLast?_eq_getLast (l := p.dropLast) (x := u) (by rw [hu]; rfl)
    rw [heq]
    exact List.getLast_mem hne
  have hmin' : ∀ q, IsPath R n q s u → d + 1 ≤ q.length := by
    intro q hq
    by_contra hcon
    push_neg at hcon
    have hq2 : IsPath R n (q ++ [p.getLast hpn]) s t := by
      rw [htv]
      exact isPath_append_edge hq hedge hvn
    have := hmin _ hq2
    simp at this
    omega
  subst htv
  exact ⟨u, hun, hedge, ⟨p.dropLast, hqpath, hql⟩, hmin'⟩

theorem pathDist_step_le {R : Mat} {n s u v du : Nat}
    (h : PathDist R n s u du) (huv : 0 < R u v) (hv : v < n) :
    ∃ dv, PathDist R n s v dv ∧ dv ≤ du + 1 := by
  obtain ⟨⟨p, hp, hl⟩, _⟩ := h
  have hpath : IsPath R n (p ++ [v]) s v := isPath_append_edge hp huv hv
  obtain ⟨dv, hdv⟩ := pathDist_exists ⟨_, hpath⟩
  refine ⟨dv, hdv, ?_⟩
  have := pathDist_le_path hdv hpath
  simp at this
  omega

theorem isPath_ends_lt {R : Mat} {n : Nat} {p : List Nat} {s t : Nat}
    (h : IsPath R n p s t) : s < n ∧ t < n := by
  obtain ⟨h1, h2, h3, _⟩ := h
  constructor
  · exact h3 s (List.mem_of_mem_head? (by rw [h1]; rfl))
  · obtain ⟨hne, heq⟩ := List.mem_getLast?_eq_getLast (l := p) (x := t) (by rw [h2]; rfl)
    rw [heq]
    exact h3 _ (List.getLast_mem hne)

theorem pathDist_target_lt {R : Mat} {n s t d : Nat} (h : PathDist R n s t d) : t < n := by
  obtain ⟨⟨p, hp, _⟩, _⟩ := h
  exact (isPath_ends_lt hp).2

theorem nodup_of_distIndexed {R : Mat} {n source : Nat} {p : List Nat}
    (h : ∀ i (hi : i < p.length), PathDist R n source (p.get ⟨i, hi⟩) i) :
    p.Nodup := by
  rw [List.nodup_iff_injective_get]
  intro i j hij
  have h1 := h i.1 i.2
  have h2 := h j.1 j.2
  simp only [Fin.eta] at h1 h2
  rw [hij] at h1
  exact Fin.ext (pathDist_unique h1 h2)

theorem length_le_of_nodup_lt {p : List Nat} {n : Nat}
    (hnd : p.Nodup) (hlt : ∀ v ∈ p, v < n) : p.length ≤ n := by
  classical
  have hcard : p.toFinset.card = p.length := List.toFinset_card_of_nodup hnd
  have hsub : p.toFinset ⊆ Finset.range n := by
    intro x hx
    rw [List.mem_toFinset] at hx
    exact Finset.mem_range.mpr (hlt x hx)
  have := Finset.card_le_card hsub
  rw [hcard, Finset.card_range] at this
  exact this

theorem closed_frontier {R : Mat} {n source : Nat} {st : BfsState}
    (hsrc : st.visited source = true)
    (hclosed : ∀ x, st.visited x = true → x ∉ st.queue →
      ∀ y, y < n → 0 < R x y → st.visited y = true) :
    ∀ dw w, PathDist R n source w dw →
      (∀ q ∈ st.queue, ∀ dq, PathDist R n source q dq → dw < dq) →
      st.visited w = true ∧ w ∉ st.queue := by
  intro dw
  induction dw using Nat.strong_induction_on with
  | _ dw ih =>
    intro w hw hmin
    have hnotq : w ∉ st.queue := by
      intro hq
      exact absurd (hmin w hq dw hw) (lt_irrefl dw)
    cases dw with
    | zero =>
      have hws : w = source := pathDist_zero hw
      subst hws
      exact ⟨hsrc, hnotq⟩
    | succ d =>
      obtain ⟨u, hun, hedge, hu⟩ := pathDist_pred hw
      have hu' := ih d (by omega) u hu (fun q hq dq hdq => by
        have := hmin q hq dq hdq
        omega)
      exact ⟨hclosed u hu'.1 hu'.2 w (pathDist_target_lt hw) hedge, hnotq⟩

/-! ### The BFS scan step -/

theorem scan_new_dist {R : Mat} {n source u du : Nat} {vis₀ : Nat → Bool}
    {queue₀ : List Nat}
    (hsrc : vis₀ source = true)
    (hdu : PathDist R n source u du)
    (hqdist : ∀ q ∈ queue₀, ∀ dq, PathDist R n source q dq → du ≤ dq)
    (hclosed₀ : ∀ x, vis₀ x = true → x ∉ queue₀ → ∀ y, y < n → 0 < R x y → vis₀ y = true)
    {v : Nat} (hv : v < n) (hedge : 0 < R u v) (hunvis : vis₀ v = false) :
    PathDist R n source v (du + 1) := by
  obtain ⟨dv, hdv, hle⟩ := pathDist_step_le hdu hedge hv
  rcases Nat.lt_or_ge du dv with hgt | hge
  · have hdv1 : dv = du + 1 := by omega
    subst hdv1
    exact hdv
  · exfalso
    cases dv with
    | zero =>
      have hvs : v = source := pathDist_zero hdv
      rw [hvs, hsrc] at hunvis
      exact absurd hunvis (by simp)
    | succ d =>
      obtain ⟨u₁, hu₁n, hedge₁, hd⟩ := pathDist_pred hdv
      have hfr := @closed_frontier R n source ⟨vis₀, fun _ => 0, queue₀⟩ hsrc hclosed₀ d u₁ hd
        (fun q hq dq hdq => by
          have := hqdist q hq dq hdq
          omega)
      have := hclosed₀ u₁ hfr.1 hfr.2 v hv hedge₁
      rw [this] at hunvis
      exact absurd hunvis (by simp)

theorem bfsScan_aux {R : Mat} {n source sink : Nat} {vis₀ : Nat → Bool} {par₀ : Nat → Int}
    {qs : List Nat} {u du : Nat}
    (hsrc : vis₀ source = true)
    (hdu : PathDist R n source u du)
    (hqdist : ∀ q ∈ u :: qs, ∀ dq, PathDist R n source q dq → du ≤ dq)
    (hclosed₀ : ∀ x, vis₀ x = true → x ∉ u :: qs → ∀ y, y < n → 0 < R x y → vis₀ y = true) :
    ∀ vs st New,
      (∀ v ∈ vs, v < n) →
      (∀ w, st.visited w = true ↔ (vis₀ w = true ∨ w ∈ New)) →
      st.queue = qs ++ New →
      (∀ w, w ∉ New → st.parent w = par₀ w) →
      (∀ w ∈ New, st.parent w = Int.ofNat u) →
      New.Nodup →
      (∀ w ∈ New, w < n ∧ vis₀ w = false ∧ 0 < R u w ∧ PathDist R n source w (du + 1)) →
      (∀ y, y < n → y ∉ vs → 0 < R u y → st.visited y = true) →
      (∀ w ∈ New, w ≠ sink) →
      ∀ st' found, bfsScan R sink u vs st = (st', found) →
        ∃ New',
          (∀ w, st'.visited w = true ↔ (vis₀ w = true ∨ w ∈ New')) ∧
          st'.queue = qs ++ New' ∧
          (∀ w, w ∉ New' → st'.parent w = par₀ w) ∧
          (∀ w ∈ New', st'.parent w = Int.ofNat u) ∧
          New'.Nodup ∧
          (∀ w ∈ New', w < n ∧ vis₀ w = false ∧ 0 < R u w ∧ PathDist R n source w (du + 1)) ∧
          (found = true → sink ∈ New') ∧
          (found = false → (∀ w ∈ New', w ≠ sink) ∧
            ∀ y, y < n → 0 < R u y → st'.visited y = true) := by
  intro vs
  induction vs with
  | nil =>
    intro st New hvs hvis hqueue hparN hparY hnd hprops hclose hsink st' found hrun
    simp only [bfsScan, Prod.mk.injEq] at hrun
    obtain ⟨rfl, rfl⟩ := hrun
    refine ⟨New, hvis, hqueue, hparN, hparY, hnd, hprops, by simp, ?_⟩
    intro _
    exact ⟨hsink, fun y hy => hclose y hy (by simp)⟩
  | cons v vs ih =>
    intro st New hvs hvis hqueue hparN hparY hnd hprops hclose hsink st' found hrun
    rw [bfsScan] at hrun
    by_cases hg : st.visited v = false ∧ 0 < R u v
    · rw [if_pos hg] at hrun
      have hvnotNew : v ∉ New := by
        intro hmem
        have := (hvis v).mpr (Or.inr hmem)
        rw [this] at hg
        exact absurd hg.1 (by simp)
      have hvnotvis : vis₀ v = false := by
        by_contra hcon
        have hv0 : vis₀ v = true := by
          cases hvv : vis₀ v
          · exact absurd hvv hcon
          · rfl
        have := (hvis v).mpr (Or.inl hv0)
        rw [this] at hg
        exact absurd hg.1 (by simp)
      have hvlt : v < n := hvs v (by simp)
      have hvdist : PathDist R n source v (du + 1) :=
        scan_new_dist hsrc hdu hqdist hclosed₀ hvlt hg.2 hvnotvis
      have hvis₁ : ∀ w, (upd st.visited v true) w = true ↔
          (vis₀ w = true ∨ w ∈ New ++ [v]) := by
        intro w
        by_cases hw : w = v
        · subst hw
          simp [upd_self]
        · rw [upd_other _ _ _ _ hw, hvis w]
          simp [hw]
      have hqueue₁ : st.queue ++ [v] = qs ++ (New ++ [v]) := by
        rw [hqueue, List.append_assoc]
      have hparN₁ : ∀ w, w ∉ New ++ [v] → (upd st.parent v (Int.ofNat u)) w = par₀ w := by
        intro w hw
        simp only [List.mem_append, List.mem_singleton, not_or] at hw
        rw [upd_other _ _ _ _ hw.2]
        exact hparN w hw.1
      have hparY₁ : ∀ w ∈ New ++ [v], (upd st.parent v (Int.ofNat u)) w = Int.ofNat u := by
        intro w hw
        by_cases hwv : w = v
        · subst hwv; exact upd_self _ _ _
        · rw [upd_other _ _ _ _ hwv]
          refine hparY w ?_
          simp at hw
          rcases hw with hw | hw
          · exact hw
          · exact absurd hw hwv
      have hnd₁ : (New ++ [v]).Nodup := by
        simp [List.nodup_append, hnd, hvnotNew]
      have hprops₁ : ∀ w ∈ New ++ [v],
          w < n ∧ vis₀ w = false ∧ 0 < R u w ∧ PathDist R n source w (du + 1) := by
        intro w hw
        simp at hw
        rcases hw with hw | hw
        · exact hprops w hw
        · subst hw
          exact ⟨hvlt, hvnotvis, hg.2, hvdist⟩
      by_cases hvsink : v = sink
      · rw [if_pos hvsink] at hrun
        simp only [Prod.mk.injEq] at hrun
        obtain ⟨rfl, rfl⟩ := hrun
        refine ⟨New ++ [v], hvis₁, hqueue₁, hparN₁, hparY₁, hnd₁, hprops₁, ?_, by simp⟩
        intro _
        rw [← hvsink]
        simp
      · rw [if_neg hvsink] at hrun
        refine ih _ (New ++ [v]) (fun w hw => hvs w (by simp [hw])) hvis₁ hqueue₁
          hparN₁ hparY₁ hnd₁ hprops₁ ?_ ?_ st' found hrun
        · intro y hy hynot hpos
          show upd st.visited v true y = true
          by_cases hyv : y = v
          · subst hyv
            exact upd_self _ _ _
          · rw [upd_other _ _ _ _ hyv]
            exact hclose y hy (by simp [hynot, hyv]) hpos
        · intro w hw
          simp at hw
          rcases hw with hw | hw
          · exact hsink w hw
          · subst hw; exact hvsink
    · rw [if_neg hg] at hrun
      refine ih _ New (fun w hw => hvs w (by simp [hw])) hvis hqueue hparN hparY hnd hprops
        ?_ hsink st' found hrun
      intro y hy hynot hpos
      by_cases hyv : y = v
      · subst hyv
        cases hvv : st.visited y
        · exact absurd ⟨hvv, hpos⟩ hg
        · rfl
      · exact hclose y hy (by simp [hynot, hyv]) hpos

theorem countP_flip_one :
    ∀ (l : List Nat), l.Nodup → ∀ (vis : Nat → Bool) (w : Nat), w ∈ l → vis w = false →
      l.countP (fun v => !(vis v || decide (v = w))) + 1 = l.countP (fun v => !vis v) := by
  intro l
  induction l with
  | nil =>
    intro _ vis w hw
    simp at hw
  | cons a l ih =>
    intro hnd vis w hw hvw
    rw [List.countP_cons, List.countP_cons]
    rcases List.mem_cons.mp hw with haw | hw'
    · subst haw
      have hnotl : w ∉ l := (List.nodup_cons.mp hnd).1
      have hcong : l.countP (fun v => !(vis v || decide (v = w))) = l.countP (fun v => !vis v) := by
        refine List.countP_congr ?_
        intro x hx
        have hxa : x ≠ w := fun hc => hnotl (hc ▸ hx)
        simp [hxa]
      rw [hcong, hvw]
      simp
    · have := ih (List.nodup_cons.mp hnd).2 vis w hw' hvw
      by_cases haw : a = w
      · subst haw
        exact absurd hw' (List.nodup_cons.mp hnd).1
      · have hpa : (!(vis a || decide (a = w))) = (!vis a) := by
          simp [haw]
        rw [hpa]
        omega

theorem countP_flip_many :
    ∀ (New : List Nat) (vis : Nat → Bool) (n : Nat), New.Nodup →
      (∀ w ∈ New, w < n ∧ vis w = false) →
      (List.range n).countP (fun v => !(vis v || decide (v ∈ New))) + New.length
        = (List.range n).countP (fun v => !vis v) := by
  intro New
  induction New with
  | nil =>
    intro vis n _ _
    have : (List.range n).countP (fun v => !(vis v || decide (v ∈ ([] : List Nat))))
        = (List.range n).countP (fun v => !vis v) := by
      refine List.countP_congr ?_
      intro x _
      simp
    rw [this]
    simp
  | cons w New ih =>
    intro vis n hnd hmem
    have hw := hmem w (by simp)
    have hstep : (List.range n).countP (fun v => !(vis v || decide (v ∈ w :: New)))
        = (List.range n).countP (fun v => !((fun x => vis x || decide (x = w)) v || decide (v ∈ New))) := by
      refine List.countP_congr ?_
      intro x _
      simp only [List.mem_cons, Bool.not_eq_true']
      constructor
      · intro h
        simp only [Bool.or_eq_false_iff, decide_eq_false_iff_not, not_or] at h ⊢
        exact ⟨⟨h.1, h.2.1⟩, h.2.2⟩
      · intro h
        simp only [Bool.or_eq_false_iff, decide_eq_false_iff_not, not_or] at h ⊢
        exact ⟨h.1.1, h.1.2, h.2⟩
    have hih := ih (fun x => vis x || decide (x = w)) n (List.nodup_cons.mp hnd).2
      (fun x hx => ⟨(hmem x (by simp [hx])).1, by
        have hxw : x ≠ w := fun hc => (List.nodup_cons.mp hnd).1 (hc ▸ hx)
        simp [hxw, (hmem x (by simp [hx])).2]⟩)
    have hone := countP_flip_one (List.range n) (List.nodup_range n) vis w
      (List.mem_range.mpr hw.1) hw.2
    have hih2 : (List.range n).countP (fun v => !(vis v || decide (v = w) || decide (v ∈ New)))
          + New.length
        = (List.range n).countP (fun v => !(vis v || decide (v = w))) := hih
    rw [hstep]
    simp only [List.length_cons]
    omega

theorem chains_after_scan {R : Mat} {n source sink : Nat} {st₀ st' : BfsState}
    {u du : Nat} {New' : List Nat}
    (hInv : BfsInv R n source sink st₀)
    (huvis : st₀.visited u = true)
    (hdu : PathDist R n source u du)
    (hvis' : ∀ w, st'.visited w = true ↔ (st₀.visited w = true ∨ w ∈ New'))
    (hparN : ∀ w, w ∉ New' → st'.parent w = st₀.parent w)
    (hparY : ∀ w ∈ New', st'.parent w = Int.ofNat u)
    (hprops : ∀ w ∈ New', w < n ∧ st₀.visited w = false ∧ 0 < R u w ∧
      PathDist R n source w (du + 1)) :
    ∀ v, st'.visited v = true →
      ∃ p, parentChain st'.parent source n v = some p ∧ IsPath R n p source v ∧
        (∀ w ∈ p, st'.visited w = true) ∧
        ∀ i (h : i < p.length), PathDist R n source (p.get ⟨i, h⟩) i := by
  have hold_chain : ∀ v, st₀.visited v = true →
      ∃ p, parentChain st'.parent source n v = some p ∧ IsPath R n p source v ∧
        (∀ w ∈ p, st₀.visited w = true) ∧
        ∀ i (h : i < p.length), PathDist R n source (p.get ⟨i, h⟩) i := by
    intro v hv
    obtain ⟨p, hc, hpath, hvisp, hdist⟩ := hInv.chains v hv
    refine ⟨p, ?_, hpath, hvisp, hdist⟩
    refine parentChain_congr hc ?_
    intro w hw
    refine hparN w ?_
    intro hmem
    have hbad := (hprops w hmem).2.1
    rw [hvisp w hw] at hbad
    exact absurd hbad (by simp)
  intro v hv
  rcases (hvis' v).mp hv with hold | hnew
  · obtain ⟨p, hc, hpath, hvisp, hdist⟩ := hold_chain v hold
    exact ⟨p, hc, hpath, fun w hw => (hvis' w).mpr (Or.inl (hvisp w hw)), hdist⟩
  · obtain ⟨hwlt, hwunvis, hedge, hwdist⟩ := hprops v hnew
    have hvsrc : v ≠ source := by
      intro hc
      rw [hc, hInv.vis_source] at hwunvis
      exact absurd hwunvis (by simp)
    obtain ⟨pu, hcu, hpu, hvispu, hdistu⟩ := hold_chain u huvis
    have hpun : pu ≠ [] := isPath_ne_nil hpu
    have hpul : 1 ≤ pu.length := List.length_pos.mpr hpun
    have hlast : pu.getLast hpun = u := by
      have h1 := (parentChain_getLast (parentChain_congr hcu (fun _ _ => rfl))).2.1
      have h2 := List.getLast?_eq_getLast_of_ne_nil hpun
      rw [h1] at h2
      exact (Option.some_injective _ h2).symm
    have hulen : PathDist R n source u (pu.length - 1) := by
      have := hdistu (pu.length - 1) (by omega)
      have hget : pu.get ⟨pu.length - 1, by omega⟩ = u := by
        rw [← hlast]
        exact (List.getLast_eq_getElem pu hpun).symm
      rw [hget] at this
      exact this
    have hlen : pu.length = du + 1 := by
      have := pathDist_unique hulen hdu
      omega
    have hpund : pu.Nodup := nodup_of_distIndexed hdistu
    have hpunlen : pu.length ≤ n := length_le_of_nodup_lt hpund hpu.2.2.1
    obtain ⟨m, hm⟩ : ∃ m, n = m + 1 := ⟨n - 1, by omega⟩
    have hchain_u_m : parentChain st'.parent source m u = some pu :=
      parentChain_shrink hcu (by omega)
    have hchain_v : parentChain st'.parent source n v = some (pu ++ [v]) := by
      rw [hm]
      rw [parentChain]
      rw [if_neg hvsrc]
      have hpv : st'.parent v = Int.ofNat u := hparY v hnew
      rw [hpv]
      rw [show (Int.ofNat u).toNat = u from rfl]
      rw [hchain_u_m]
      rfl
    refine ⟨pu ++ [v], hchain_v, isPath_append_edge hpu hedge hwlt, ?_, ?_⟩
    · intro w hw
      rcases List.mem_append.mp hw with hw | hw
      · exact (hvis' w).mpr (Or.inl (hvispu w hw))
      · simp at hw
        subst hw
        exact hv
    · intro i hi
      simp only [List.length_append, List.length_cons, List.length_nil] at hi
      by_cases hilt : i < pu.length
      · have hget : (pu ++ [v]).get ⟨i, by simp; omega⟩ = pu.get ⟨i, hilt⟩ := by
          rw [List.get_eq_getElem, List.get_eq_getElem]
          exact List.getElem_append_left hilt
        rw [hget]
        exact hdistu i hilt
      · have hieq : i = pu.length := by omega
        subst hieq
        have hget : (pu ++ [v]).get ⟨pu.length, by simp⟩ = v := by
          rw [List.get_eq_getElem]
          simp
        rw [hget]
        rw [hlen]
        exact hwdist

theorem distIndexed_last {R : Mat} {n source : Nat} {p : List Nat} {v : Nat}
    (hne : p ≠ []) (hlast : p.getLast? = some v)
    (hdist : ∀ i (h : i < p.length), PathDist R n source (p.get ⟨i, h⟩) i) :
    PathDist R n source v (p.length - 1) := by
  have hpl : 1 ≤ p.length := List.length_pos.mpr hne
  have h1 := hdist (p.length - 1) (by omega)
  have h2 := List.getLast?_eq_getLast_of_ne_nil hne
  rw [hlast] at h2
  have hget : p.get ⟨p.length - 1, by omega⟩ = v := by
    have := List.getLast_eq_getElem p hne
    have hv : p.getLast hne = v := (Option.some_injective _ h2).symm
    rw [← hv]
    exact this.symm
  rw [hget] at h1
  exact h1

theorem bfs_pop_step {R : Mat} {n source sink : Nat} {st₀ : BfsState} {u : Nat} {qs : List Nat}
    (hq : st₀.queue = u :: qs) (hInv : BfsInv R n source sink st₀) :
    ∀ st' found,
      bfsScan R sink u (List.range n) { st₀ with queue := qs } = (st', found) →
      (found = false → BfsInv R n source sink st' ∧
        bfsMeasure n st' + 1 = bfsMeasure n st₀) ∧
      (found = true → BfsFound R n source sink st') := by
  intro st' found hrun
  have huq : u ∈ st₀.queue := by rw [hq]; simp
  have huvis : st₀.visited u = true := hInv.queue_vis u huq
  obtain ⟨pu, hcu, hpu, hvispu, hdistu⟩ := hInv.chains u huvis
  have hlastu : pu.getLast? = some u := (parentChain_getLast hcu).2.1
  have hdu : PathDist R n source u (pu.length - 1) :=
    distIndexed_last (isPath_ne_nil hpu) hlastu hdistu
  set du := pu.length - 1 with hdudef
  have hsorted₀ := hInv.queue_sorted
  rw [hq] at hsorted₀
  have hqdist : ∀ q ∈ u :: qs, ∀ dq, PathDist R n source q dq → du ≤ dq := by
    intro q hmem dq hdq
    rcases List.mem_cons.mp hmem with rfl | hmem'
    · rw [pathDist_unique hdu hdq]
    · exact (List.pairwise_cons.mp hsorted₀).1 q hmem' du dq hdu hdq
  have hclosed₀ : ∀ x, st₀.visited x = true → x ∉ u :: qs →
      ∀ y, y < n → 0 < R x y → st₀.visited y = true := by
    intro x hx hxq
    exact hInv.closed x hx (by rw [hq]; exact hxq)
  have hscan := @bfsScan_aux R n source sink st₀.visited st₀.parent qs u du hInv.vis_source hdu hqdist hclosed₀ (List.range n)
    { st₀ with queue := qs } []
    (fun v hv => List.mem_range.mp hv)
    (by intro w; simp)
    (by simp)
    (fun w _ => rfl)
    (by simp)
    (by simp)
    (by simp)
    (fun y hy hmem _ => absurd (List.mem_range.mpr hy) hmem)
    (by simp)
    st' found hrun
  obtain ⟨New', hvis', hqueue', hparN', hparY', hnd', hprops', hfoundsink, hfalse⟩ := hscan
  have hchains' := chains_after_scan hInv huvis hdu hvis' hparN' hparY' hprops'
  constructor
  · intro hfound
    subst hfound
    obtain ⟨hsinkN, hclose'⟩ := hfalse rfl
    have hqs_nodup : qs.Nodup := by
      have := hInv.queue_nodup
      rw [hq] at this
      exact (List.nodup_cons.mp this).2
    have hqs_lt : ∀ q ∈ qs, q < n := fun q hmem =>
      hInv.queue_lt q (by rw [hq]; exact List.mem_cons_of_mem u hmem)
    have hqs_vis : ∀ q ∈ qs, st₀.visited q = true := fun q hmem =>
      hInv.queue_vis q (by rw [hq]; exact List.mem_cons_of_mem u hmem)
    have hqs_du : ∀ q ∈ qs, ∀ dq, PathDist R n source q dq → du ≤ dq :=
      fun q hmem dq hdq => (List.pairwise_cons.mp hsorted₀).1 q hmem du dq hdu hdq
    have hqs_two : ∀ q ∈ qs, ∀ dq, PathDist R n source q dq → dq ≤ du + 1 := by
      intro q hmem dq hdq
      exact hInv.queue_twolevel u huq q (by rw [hq]; exact List.mem_cons_of_mem u hmem)
        du dq hdu hdq
    have hNdist : ∀ w ∈ New', ∀ dw, PathDist R n source w dw → dw = du + 1 :=
      fun w hw dw hdw => pathDist_unique hdw (hprops' w hw).2.2.2
    refine ⟨⟨?_, ?_, ?_, ?_, ?_, hchains', ?_, ?_, ?_⟩, ?_⟩
    · exact (hvis' source).mpr (Or.inl hInv.vis_source)
    · cases hsv : st'.visited sink
      · rfl
      · exfalso
        rcases (hvis' sink).mp hsv with hbad | hbad
        · rw [hInv.vis_sink] at hbad
          exact absurd hbad (by simp)
        · exact hsinkN sink hbad rfl
    · rw [hqueue']
      intro q hmem
      rcases List.mem_append.mp hmem with hmem | hmem
      · exact hqs_lt q hmem
      · exact (hprops' q hmem).1
    · rw [hqueue']
      intro q hmem
      rcases List.mem_append.mp hmem with hmem | hmem
      · exact (hvis' q).mpr (Or.inl (hqs_vis q hmem))
      · exact (hvis' q).mpr (Or.inr hmem)
    · rw [hqueue', List.nodup_append]
      refine ⟨hqs_nodup, hnd', ?_⟩
      intro x hx hx'
      have h1 := hqs_vis x hx
      have h2 := (hprops' x hx').2.1
      rw [h1] at h2
      exact absurd h2 (by simp)
    · rw [hqueue', List.pairwise_append]
      refine ⟨(List.pairwise_cons.mp hsorted₀).2, ?_, ?_⟩
      · refine List.pairwise_of_forall_mem_list ?_
        intro a hma b hmb da db hda hdb
        rw [hNdist a hma da hda, hNdist b hmb db hdb]
      · intro a hma b hmb da db hda hdb
        rw [hNdist b hmb db hdb]
        exact hqs_two a hma da hda
    · rw [hqueue']
      intro a hma b hmb da db hda hdb
      have hda_ge : du ≤ da := by
        rcases List.mem_append.mp hma with hma | hma
        · exact hqs_du a hma da hda
        · rw [hNdist a hma da hda]
          omega
      rcases List.mem_append.mp hmb with hmb | hmb
      · have := hqs_two b hmb db hdb
        omega
      · rw [hNdist b hmb db hdb]
        omega
    · intro x hx hxq y hy hpos
      rcases (hvis' x).mp hx with hold | hnew
      · by_cases hxu : x = u
        · subst hxu
          exact hclose' y hy hpos
        · have hxq₀ : x ∉ st₀.queue := by
            rw [hq]
            intro hmem
            rcases List.mem_cons.mp hmem with h | h
            · exact hxu h
            · refine hxq ?_
              rw [hqueue']
              exact List.mem_append.mpr (Or.inl h)
          have := hInv.closed x hold hxq₀ y hy hpos
          exact (hvis' y).mpr (Or.inl this)
      · exfalso
        refine hxq ?_
        rw [hqueue']
        exact List.mem_append.mpr (Or.inr hnew)
    · have hbool : ∀ w, st'.visited w = (st₀.visited w || decide (w ∈ New')) := by
        intro w
        cases h : st'.visited w
        · cases h₀ : st₀.visited w
          · by_cases hmem : w ∈ New'
            · exact absurd ((hvis' w).mpr (Or.inr hmem)) (by rw [h]; simp)
            · simp [hmem]
          · exact absurd ((hvis' w).mpr (Or.inl h₀)) (by rw [h]; simp)
        · rcases (hvis' w).mp h with h₀ | hmem
          · rw [h₀]; simp
          · simp [hmem]
      have hcong : (List.range n).countP (fun v => !st'.visited v)
          = (List.range n).countP (fun v => !(st₀.visited v || decide (v ∈ New'))) := by
        refine List.countP_congr ?_
        intro x _
        rw [hbool x]
      have hflip := countP_flip_many New' st₀.visited n hnd'
        (fun w hw => ⟨(hprops' w hw).1, (hprops' w hw).2.1⟩)
      have hql' : st'.queue.length = qs.length + New'.length := by
        rw [hqueue']
        simp
      have hql₀ : st₀.queue.length = qs.length + 1 := by
        rw [hq]
        simp
      unfold bfsMeasure
      rw [hcong, hql', hql₀]
      omega
  · intro hfound
    subst hfound
    have hsinkmem : sink ∈ New' := hfoundsink rfl
    have hsinkvis : st'.visited sink = true := (hvis' sink).mpr (Or.inr hsinkmem)
    obtain ⟨p, hc, hpath, _, hdist⟩ := hchains' sink hsinkvis
    exact ⟨p, hc, hpath, hdist⟩

theorem bfsLoop_main {R : Mat} {n source sink : Nat} :
    ∀ fuel st, BfsInv R n source sink st → bfsMeasure n st ≤ fuel →
      ∀ st' found, bfsLoop R n sink fuel st = (st', found) →
        (found = false → BfsInv R n source sink st' ∧ st'.queue = []) ∧
        (found = true → BfsFound R n source sink st') := by
  intro fuel
  induction fuel with
  | zero =>
    intro st hInv hm st' found hrun
    simp only [bfsLoop, Prod.mk.injEq] at hrun
    obtain ⟨rfl, rfl⟩ := hrun
    refine ⟨fun _ => ⟨hInv, ?_⟩, by simp⟩
    unfold bfsMeasure at hm
    cases hqe : st.queue with
    | nil => rfl
    | cons a l =>
      rw [hqe] at hm
      simp at hm
  | succ f ih =>
    intro st hInv hm st' found hrun
    rw [bfsLoop] at hrun
    split at hrun
    · next hqe =>
      simp only [Prod.mk.injEq] at hrun
      obtain ⟨rfl, rfl⟩ := hrun
      exact ⟨fun _ => ⟨hInv, hqe⟩, by simp⟩
    · next u qs hqe =>
      split at hrun
      · next st₁ hscan =>
        simp only [Prod.mk.injEq] at hrun
        obtain ⟨rfl, rfl⟩ := hrun
        have := (bfs_pop_step hqe hInv st₁ true hscan).2 rfl
        exact ⟨by simp, fun _ => this⟩
      · next st₁ hscan =>
        obtain ⟨hInv₁, hm₁⟩ := (bfs_pop_step hqe hInv st₁ false hscan).1 rfl
        have hle : bfsMeasure n st₁ ≤ f := by
          have hm₀ : bfsMeasure n st = bfsMeasure n st₁ + 1 := hm₁.symm ▸ rfl
          omega
        exact ih st₁ hInv₁ hle st' found hrun

theorem bfs_init_inv {R : Mat} {n source sink : Nat} (hsn : source < n)
    (hns : sink ≠ source) (par₀ : Nat → Int) :
    BfsInv R n source sink
      { visited := upd (fun _ => false) source true
        parent := upd par₀ source (-1)
        queue := [source] } := by
  have hvis : ∀ w, (upd (fun _ => false) source true) w = true ↔ w = source := by
    intro w
    by_cases hw : w = source
    · rw [hw]
      simp [upd_self]
    · rw [upd_other _ _ _ _ hw]
      simp [hw]
  refine ⟨?_, ?_, ?_, ?_, ?_, ?_, ?_, ?_, ?_⟩
  · exact (hvis source).mpr rfl
  · show upd (fun _ => false) source true sink = false
    rw [upd_other _ _ _ _ hns]
  · intro q hq
    simp at hq
    rw [hq]
    exact hsn
  · intro q hq
    simp at hq
    rw [hq]
    exact (hvis source).mpr rfl
  · simp
  · intro v hv
    have hv' : upd (fun _ => false) source true v = true := hv
    have hvsrc : v = source := (hvis v).mp hv'
    subst hvsrc
    refine ⟨[v], ?_, isPath_single hsn, ?_, ?_⟩
    · exact parentChain_source _ _ _
    · intro w hw
      simp at hw
      rw [hw]
      exact (hvis v).mpr rfl
    · intro i hi
      simp at hi
      subst hi
      exact pathDist_self hsn
  · simp
  · intro a ha b hb da db hda hdb
    simp at ha hb
    rw [ha] at hda
    rw [hb] at hdb
    have h0 : PathDist R n source source 0 := pathDist_self hsn
    have hda0 := pathDist_unique hda h0
    have hdb0 := pathDist_unique hdb h0
    omega
  · intro x hx hxq y hy hpos
    exfalso
    have hx' : upd (fun _ => false) source true x = true := hx
    have hxsrc : x = source := (hvis x).mp hx'
    rw [hxsrc] at hxq
    exact hxq (by simp)

theorem bfs_main {R : Mat} {n source sink : Nat} (hsn : source < n) (hns : sink ≠ source)
    (par₀ : Nat → Int) :
    ∀ st' found, bfs R n source sink par₀ = (st', found) →
      (found = false → BfsInv R n source sink st' ∧ st'.queue = []) ∧
      (found = true → BfsFound R n source sink st') := by
  intro st' found hrun
  refine bfsLoop_main (n + 1) _ (bfs_init_inv hsn hns par₀) ?_ st' found hrun
  unfold bfsMeasure
  have := List.countP_le_length
    (l := List.range n) (p := fun v => !(upd (fun _ => false) source true v))
  simp only [List.length_range] at this
  simp
  omega

theorem bfs_false_no_path {R : Mat} {n source sink : Nat} (hsn : source < n)
    (hns : sink ≠ source) {par₀ : Nat → Int} {st' : BfsState}
    (hrun : bfs R n source sink par₀ = (st', false)) :
    ¬ ∃ p, IsPath R n p source sink := by
  intro hpath
  obtain ⟨hInv, hqe⟩ := (bfs_main hsn hns par₀ st' false hrun).1 rfl
  obtain ⟨d, hd⟩ := pathDist_exists hpath
  have := closed_frontier hInv.vis_source hInv.closed d sink hd
    (by rw [hqe]; intro q hq; simp at hq)
  rw [hInv.vis_sink] at this
  exact absurd this.1 (by simp)

/-! ### The parent walks compute the list-level bottleneck and augmentation -/

theorem pedges_snoc : ∀ (q : List Nat) (u v : Nat), q.getLast? = some u →
    pedges (q ++ [v]) = pedges q ++ [(u, v)] := by
  intro q
  induction q with
  | nil =>
    intro u v h
    simp at h
  | cons a q ih =>
    intro u v h
    cases q with
    | nil =>
      simp at h
      rw [h]
      rfl
    | cons b q' =>
      have h' : (b :: q').getLast? = some u := by
        rw [← h]
        rfl
      have hih := ih u v h'
      show (a, b) :: pedges ((b :: q') ++ [v]) = ((a, b) :: pedges (b :: q')) ++ [(u, v)]
      rw [hih]
      simp

theorem path_flow_walk_eq {R : Mat} {par : Nat → Int} {source : Nat} :
    ∀ {f v p}, parentChain par source f v = some p →
      ∀ g, p.length ≤ g + 1 → ∀ acc,
        path_flow_walk R par source g v acc =
          (pedges p).reverse.foldl (fun a e => some (optMin a (R e.1 e.2))) acc := by
  intro f
  induction f with
  | zero =>
    intro v p h g _ acc
    by_cases hv : v = source
    · rw [hv] at h ⊢
      rw [parentChain_source] at h
      have hp : p = [source] := by
        have := h
        simp at this
        exact this.symm
      subst hp
      cases g with
      | zero => rfl
      | succ g' =>
        show path_flow_walk R par source (g' + 1) source acc = _
        rw [path_flow_walk]
        simp [pedges]
    · simp [parentChain, hv] at h
  | succ f ih =>
    intro v p h g hg acc
    by_cases hv : v = source
    · rw [hv] at h ⊢
      rw [parentChain_source] at h
      have hp : p = [source] := by
        have := h
        simp at this
        exact this.symm
      subst hp
      cases g with
      | zero => rfl
      | succ g' =>
        show path_flow_walk R par source (g' + 1) source acc = _
        rw [path_flow_walk]
        simp [pedges]
    · simp only [parentChain, if_neg hv, Option.map_eq_some'] at h
      obtain ⟨q, hq, rfl⟩ := h
      have hqlast : q.getLast? = some ((par v).toNat) := (parentChain_getLast hq).2.1
      have hqn : q ≠ [] := (parentChain_getLast hq).1
      have hql : 1 ≤ q.length := List.length_pos.mpr hqn
      have hlen : (q ++ [v]).length = q.length + 1 := by simp
      obtain ⟨g', rfl⟩ : ∃ g', g = g' + 1 := ⟨g - 1, by omega⟩
      rw [path_flow_walk, if_neg hv]
      rw [pedges_snoc q _ v hqlast]
      rw [List.reverse_append]
      simp only [List.reverse_cons, List.reverse_nil, List.nil_append, List.singleton_append,
        List.foldl_cons]
      exact ih hq g' (by omega) _

theorem augment_walk_eq {par : Nat → Int} {source : Nat} :
    ∀ {f v p}, parentChain par source f v = some p →
      ∀ g, p.length ≤ g + 1 → ∀ (Rm : Mat) (fl : Int),
        augment_walk Rm par source fl g v = listAugment Rm (pedges p).reverse fl := by
  intro f
  induction f with
  | zero =>
    intro v p h g _ Rm fl
    by_cases hv : v = source
    · rw [hv] at h ⊢
      rw [parentChain_source] at h
      have hp : p = [source] := by
        have := h
        simp at this
        exact this.symm
      subst hp
      cases g with
      | zero => rfl
      | succ g' =>
        show augment_walk Rm par source fl (g' + 1) source = _
        rw [augment_walk]
        simp [pedges, listAugment]
    · simp [parentChain, hv] at h
  | succ f ih =>
    intro v p h g hg Rm fl
    by_cases hv : v = source
    · rw [hv] at h ⊢
      rw [parentChain_source] at h
      have hp : p = [source] := by
        have := h
        simp at this
        exact this.symm
      subst hp
      cases g with
      | zero => rfl
      | succ g' =>
        show augment_walk Rm par source fl (g' + 1) source = _
        rw [augment_walk]
        simp [pedges, listAugment]
    · simp only [parentChain, if_neg hv, Option.map_eq_some'] at h
      obtain ⟨q, hq, rfl⟩ := h
      have hqlast : q.getLast? = some ((par v).toNat) := (parentChain_getLast hq).2.1
      have hqn : q ≠ [] := (parentChain_getLast hq).1
      have hql : 1 ≤ q.length := List.length_pos.mpr hqn
      have hlen : (q ++ [v]).length = q.length + 1 := by simp
      obtain ⟨g', rfl⟩ : ∃ g', g = g' + 1 := ⟨g - 1, by omega⟩
      rw [augment_walk, if_neg hv]
      rw [pedges_snoc q _ v hqlast]
      rw [List.reverse_append]
      simp only [List.reverse_cons, List.reverse_nil, List.nil_append, List.singleton_append]
      rw [show listAugment Rm ((((par v).toNat, v)) :: (pedges q).reverse) fl
          = listAugment (applyEdge Rm ((par v).toNat, v) fl) (pedges q).reverse fl from rfl]
      exact ih hq g' (by omega) _ fl

theorem pedges_mem_both : ∀ (p : List Nat) (e : Nat × Nat), e ∈ pedges p →
    e.1 ∈ p ∧ e.2 ∈ p := by
  intro p
  induction p with
  | nil => intro e he; simp [pedges] at he
  | cons a p ih =>
    intro e he
    cases p with
    | nil => simp [pedges] at he
    | cons b rest =>
      rw [pedges] at he
      rcases List.mem_cons.mp he with he | he
      · rw [he]
        exact ⟨by simp, by simp⟩
      · have := ih e he
        exact ⟨List.mem_cons_of_mem a this.1, List.mem_cons_of_mem a this.2⟩

theorem pedges_snd_tail : ∀ (p : List Nat) (e : Nat × Nat), e ∈ pedges p →
    e.2 ∈ p.tail := by
  intro p
  induction p with
  | nil => intro e he; simp [pedges] at he
  | cons a p ih =>
    intro e he
    cases p with
    | nil => simp [pedges] at he
    | cons b rest =>
      rw [pedges] at he
      rcases List.mem_cons.mp he with he | he
      · rw [he]
        simp
      · have := (pedges_mem_both _ e he).2
        exact this

theorem pedges_fst_dropLast : ∀ (p : List Nat) (e : Nat × Nat), e ∈ pedges p →
    e.1 ∈ p.dropLast := by
  intro p
  induction p with
  | nil => intro e he; simp [pedges] at he
  | cons a p ih =>
    intro e he
    cases p with
    | nil => simp [pedges] at he
    | cons b rest =>
      rw [pedges] at he
      rcases List.mem_cons.mp he with he | he
      · rw [he]
        simp
      · have := ih e he
        show e.1 ∈ a :: (b :: rest).dropLast
        exact List.mem_cons_of_mem a this

theorem pedges_nodup : ∀ (p : List Nat), p.Nodup → (pedges p).Nodup := by
  intro p
  induction p with
  | nil => intro _; simp [pedges]
  | cons a p ih =>
    intro hnd
    cases p with
    | nil => simp [pedges]
    | cons b rest =>
      rw [pedges]
      rw [List.nodup_cons]
      refine ⟨?_, ih (List.nodup_cons.mp hnd).2⟩
      intro hmem
      have := (pedges_mem_both _ _ hmem).1
      exact (List.nodup_cons.mp hnd).1 this

theorem pedges_ne {p : List Nat} (hnd : p.Nodup) :
    ∀ e ∈ pedges p, e.1 ≠ e.2 := by
  induction p with
  | nil => intro e he; simp [pedges] at he
  | cons a p ih =>
    intro e he
    cases p with
    | nil => simp [pedges] at he
    | cons b rest =>
      rw [pedges] at he
      rcases List.mem_cons.mp he with he | he
      · rw [he]
        intro hc
        simp at hc
        exact (List.nodup_cons.mp hnd).1 (by rw [hc]; simp)
      · exact ih (List.nodup_cons.mp hnd).2 e he

theorem pedges_not_rev {p : List Nat} (hnd : p.Nodup) :
    ∀ a b, (a, b) ∈ pedges p → (b, a) ∉ pedges p := by
  induction p with
  | nil => intro a b he; simp [pedges] at he
  | cons x p ih =>
    intro a b he hrev
    cases p with
    | nil => simp [pedges] at he
    | cons y rest =>
      rw [pedges] at he hrev
      have hxny : x ∉ y :: rest := (List.nodup_cons.mp hnd).1
      rcases List.mem_cons.mp he with he | he
      · simp at he
        rcases List.mem_cons.mp hrev with hrev | hrev
        · simp at hrev
          have hxy : x = y := by rw [← hrev.1, he.2]
          exact hxny (by rw [hxy]; simp)
        · have := (pedges_mem_both _ _ hrev).2
          rw [he.1] at this
          exact hxny this
      · rcases List.mem_cons.mp hrev with hrev | hrev
        · simp at hrev
          have := (pedges_mem_both _ _ he).2
          rw [hrev.1] at this
          exact hxny this
        · exact ih (List.nodup_cons.mp hnd).2 a b he hrev

theorem pedges_in_unique {p : List Nat} (hnd : p.Nodup) :
    ∀ a a' b, (a, b) ∈ pedges p → (a', b) ∈ pedges p → a = a' := by
  induction p with
  | nil => intro a a' b he; simp [pedges] at he
  | cons x p ih =>
    intro a a' b he he'
    cases p with
    | nil => simp [pedges] at he
    | cons y rest =>
      rw [pedges] at he he'
      have hynr : y ∉ rest := (List.nodup_cons.mp (List.nodup_cons.mp hnd).2).1
      rcases List.mem_cons.mp he with he | he
      · rcases List.mem_cons.mp he' with he' | he'
        · simp at he he'
          rw [he.1, he'.1]
        · simp at he
          have := pedges_snd_tail _ _ he'
          rw [← he.2] at hynr
          simp at this
          exact absurd this hynr
      · rcases List.mem_cons.mp he' with he' | he'
        · simp at he'
          have := pedges_snd_tail _ _ he
          rw [← he'.2] at hynr
          simp at this
          exact absurd this hynr
        · exact ih (List.nodup_cons.mp hnd).2 a a' b he he'

theorem pedges_out_unique {p : List Nat} (hnd : p.Nodup) :
    ∀ a b b', (a, b) ∈ pedges p → (a, b') ∈ pedges p → b = b' := by
  induction p with
  | nil => intro a b b' he; simp [pedges] at he
  | cons x p ih =>
    intro a b b' he he'
    cases p with
    | nil => simp [pedges] at he
    | cons y rest =>
      rw [pedges] at he he'
      have hxny : x ∉ y :: rest := (List.nodup_cons.mp hnd).1
      rcases List.mem_cons.mp he with he | he
      · rcases List.mem_cons.mp he' with he' | he'
        · simp at he he'
          rw [he.2, he'.2]
        · simp at he
          have := (pedges_mem_both _ _ he').1
          rw [← he.1] at hxny
          exact absurd this hxny
      · rcases List.mem_cons.mp he' with he' | he'
        · simp at he'
          have := (pedges_mem_both _ _ he).1
          rw [← he'.1] at hxny
          exact absurd this hxny
        · exact ih (List.nodup_cons.mp hnd).2 a b b' he he'

theorem pedges_no_in_head {p : List Nat} (hnd : p.Nodup) {s : Nat}
    (hhead : p.head? = some s) : ∀ v, (v, s) ∉ pedges p := by
  intro v hmem
  have hs : s ∈ p.tail := pedges_snd_tail p (v, s) hmem
  cases p with
  | nil => simp at hhead
  | cons x rest =>
    simp at hhead
    rw [hhead] at hnd
    simp at hs
    exact (List.nodup_cons.mp hnd).1 hs

theorem pedges_no_out_last {p : List Nat} (hnd : p.Nodup) {t : Nat}
    (hlast : p.getLast? = some t) : ∀ v, (t, v) ∉ pedges p := by
  intro v hmem
  have ht : t ∈ p.dropLast := pedges_fst_dropLast p (t, v) hmem
  have hne : p ≠ [] := by
    intro hc
    rw [hc] at hlast
    simp at hlast
  have hdec : p.dropLast ++ [p.getLast hne] = p := List.dropLast_append_getLast hne
  have hteq : p.getLast hne = t := by
    have := List.getLast?_eq_getLast_of_ne_nil hne
    rw [hlast] at this
    exact (Option.some_injective _ this).symm
  rw [← hdec] at hnd
  rw [List.nodup_append] at hnd
  exact hnd.2.2 ht (by rw [hteq]; simp)

theorem pedges_in_exists : ∀ (p : List Nat) (s w : Nat), p.head? = some s → w ∈ p → w ≠ s →
    ∃ v, (v, w) ∈ pedges p := by
  intro p
  induction p with
  | nil => intro s w h; simp at h
  | cons x rest ih =>
    intro s w hhead hw hws
    simp at hhead
    cases rest with
    | nil =>
      simp at hw
      rw [hhead] at hw
      exact absurd hw hws
    | cons y rest' =>
      rcases List.mem_cons.mp hw with hw | hw
      · rw [hhead] at hw
        exact absurd hw hws
      · by_cases hwy : w = y
        · exact ⟨x, by rw [pedges, hwy]; simp⟩
        · obtain ⟨v, hv⟩ := ih y w (by simp) hw hwy
          exact ⟨v, by rw [pedges]; exact List.mem_cons_of_mem _ hv⟩

theorem pedges_out_exists : ∀ (p : List Nat) (t w : Nat), p.getLast? = some t → w ∈ p → w ≠ t →
    ∃ v, (w, v) ∈ pedges p := by
  intro p
  induction p with
  | nil => intro t w h; simp at h
  | cons x rest ih =>
    intro t w hlast hw hwt
    cases rest with
    | nil =>
      simp at hlast hw
      rw [hlast] at hw
      exact absurd hw hwt
    | cons y rest' =>
      have hlast' : (y :: rest').getLast? = some t := by
        rw [← hlast]
        rfl
      rcases List.mem_cons.mp hw with hw | hw
      · exact ⟨y, by rw [pedges, hw]; simp⟩
      · obtain ⟨v, hv⟩ := ih t w hlast' hw hwt
        exact ⟨v, by rw [pedges]; exact List.mem_cons_of_mem _ hv⟩

theorem applyEdge_closed (r : Mat) (e : Nat × Nat) (f : Int) (a b : Nat) :
    applyEdge r e f a b =
      r a b - (if (a, b) = e then f else 0) + (if (b, a) = e then f else 0) := by
  obtain ⟨u, v⟩ := e
  show (if a = v ∧ b = u then (if a = u ∧ b = v then r a b - f else r a b) + f
        else (if a = u ∧ b = v then r a b - f else r a b)) = _
  have h1 : ((a, b) = (u, v)) ↔ (a = u ∧ b = v) := by simp
  have h2 : ((b, a) = (u, v)) ↔ (a = v ∧ b = u) := by
    constructor
    · intro h
      simp at h
      exact ⟨h.2, h.1⟩
    · intro h
      simp [h.1, h.2]
  by_cases hc1 : a = u ∧ b = v <;> by_cases hc2 : a = v ∧ b = u <;>
    [rw [if_pos hc2, if_pos hc1, if_pos (h1.mpr hc1), if_pos (h2.mpr hc2)];
     rw [if_neg hc2, if_pos hc1, if_pos (h1.mpr hc1), if_neg (fun hx => hc2 (h2.mp hx))];
     rw [if_pos hc2, if_neg hc1, if_neg (fun hx => hc1 (h1.mp hx)), if_pos (h2.mpr hc2)];
     rw [if_neg hc2, if_neg hc1, if_neg (fun hx => hc1 (h1.mp hx)),
       if_neg (fun hx => hc2 (h2.mp hx))]] <;>
    ring_nf

theorem ite_mem_cons {x e : Nat × Nat} {es : List (Nat × Nat)} (hne : e ∉ es) (f : Int) :
    (if x ∈ e :: es then f else 0) = (if x = e then f else 0) + (if x ∈ es then f else 0) := by
  by_cases h1 : x = e
  · rw [h1]
    simp [hne]
  · by_cases h2 : x ∈ es
    · simp [h1, h2]
    · simp [h1, h2]

theorem listAugment_closed : ∀ (es : List (Nat × Nat)), es.Nodup →
    ∀ (r : Mat) (f : Int) (a b : Nat),
      listAugment r es f a b =
        r a b - (if (a, b) ∈ es then f else 0) + (if (b, a) ∈ es then f else 0) := by
  intro es
  induction es with
  | nil =>
    intro _ r f a b
    simp [listAugment]
  | cons e es ih =>
    intro hnd r f a b
    have henotin := (List.nodup_cons.mp hnd).1
    rw [show listAugment r (e :: es) f = listAugment (applyEdge r e f) es f from rfl]
    rw [ih (List.nodup_cons.mp hnd).2]
    rw [applyEdge_closed]
    rw [ite_mem_cons henotin, ite_mem_cons henotin]
    ring

theorem listAugment_rev_closed {p : List Nat} (hnd : p.Nodup) (r : Mat) (f : Int) (a b : Nat) :
    listAugment r (pedges p).reverse f a b =
      r a b - (if (a, b) ∈ pedges p then f else 0) + (if (b, a) ∈ pedges p then f else 0) := by
  rw [listAugment_closed _ (List.nodup_reverse.mpr (pedges_nodup p hnd))]
  simp only [List.mem_reverse]

theorem foldl_optMin_always_some {R : Mat} :
    ∀ (es : List (Nat × Nat)) (a : Int),
      ∃ m, es.foldl (fun acc e => some (optMin acc (R e.1 e.2))) (some a) = some m := by
  intro es
  induction es with
  | nil => intro a; exact ⟨a, rfl⟩
  | cons e es ih =>
    intro a
    rw [List.foldl_cons]
    exact ih _

theorem foldl_optMin_le {R : Mat} :
    ∀ (es : List (Nat × Nat)) (a m : Int),
      es.foldl (fun acc e => some (optMin acc (R e.1 e.2))) (some a) = some m →
      m ≤ a ∧ ∀ e ∈ es, m ≤ R e.1 e.2 := by
  intro es
  induction es with
  | nil =>
    intro a m h
    simp at h
    rw [← h]
    exact ⟨le_refl _, by simp⟩
  | cons e es ih =>
    intro a m h
    rw [List.foldl_cons] at h
    have := ih _ m h
    have hmin : optMin (some a) (R e.1 e.2) = min a (R e.1 e.2) := rfl
    rw [hmin] at this
    refine ⟨le_trans this.1 (min_le_left _ _), ?_⟩
    intro e' he'
    rcases List.mem_cons.mp he' with he' | he'
    · rw [he']
      exact le_trans this.1 (min_le_right _ _)
    · exact this.2 e' he'

theorem foldl_optMin_ge {R : Mat} {c : Int} :
    ∀ (es : List (Nat × Nat)) (a m : Int), c ≤ a → (∀ e ∈ es, c ≤ R e.1 e.2) →
      es.foldl (fun acc e => some (optMin acc (R e.1 e.2))) (some a) = some m →
      c ≤ m := by
  intro es
  induction es with
  | nil =>
    intro a m hca _ h
    simp at h
    rw [← h]
    exact hca
  | cons e es ih =>
    intro a m hca hes h
    rw [List.foldl_cons] at h
    refine ih _ m ?_ (fun e' he' => hes e' (List.mem_cons_of_mem _ he')) h
    have hmin : optMin (some a) (R e.1 e.2) = min a (R e.1 e.2) := rfl
    rw [hmin]
    exact le_min hca (hes e (by simp))

theorem pedges_nil_iff : ∀ (p : List Nat), pedges p = [] ↔ p.length ≤ 1 := by
  intro p
  cases p with
  | nil => simp [pedges]
  | cons a rest =>
    cases rest with
    | nil => simp [pedges]
    | cons b rest' => simp [pedges]

/-! ### One iteration of the main loop preserves the solver invariants -/

theorem chain'_pedges : ∀ (p : List Nat) (r : Nat → Nat → Prop), List.Chain' r p →
    ∀ e ∈ pedges p, r e.1 e.2 := by
  intro p
  induction p with
  | nil => intro r _ e he; simp [pedges] at he
  | cons a p ih =>
    intro r hch e he
    cases p with
    | nil => simp [pedges] at he
    | cons b rest =>
      rw [pedges] at he
      rw [List.chain'_cons] at hch
      rcases List.mem_cons.mp he with he | he
      · rw [he]
        exact hch.1
      · exact ih r hch.2 e he

theorem foldl_optMin_attained {R : Mat} :
    ∀ (es : List (Nat × Nat)) (a m : Int),
      es.foldl (fun acc e => some (optMin acc (R e.1 e.2))) (some a) = some m →
      m = a ∨ ∃ e ∈ es, m = R e.1 e.2 := by
  intro es
  induction es with
  | nil =>
    intro a m h
    simp at h
    exact Or.inl h.symm
  | cons e es ih =>
    intro a m h
    rw [List.foldl_cons] at h
    rcases ih _ m h with hm | hm
    · have : optMin (some a) (R e.1 e.2) = min a (R e.1 e.2) := rfl
      rw [this] at hm
      rcases le_total a (R e.1 e.2) with hle | hle
      · rw [min_eq_left hle] at hm
        exact Or.inl hm
      · rw [min_eq_right hle] at hm
        exact Or.inr ⟨e, by simp, hm⟩
    · obtain ⟨e', he', hm⟩ := hm
      exact Or.inr ⟨e', List.mem_cons_of_mem _ he', hm⟩

theorem ekStep_found {n source sink : Nat} {st : EKState}
    (hsn : source < n) (hns : sink ≠ source) {bst : BfsState}
    (hbfs : bfs st.residual n source sink st.parent = (bst, true)) :
    ∃ p fl,
      parentChain bst.parent source n sink = some p ∧
      IsPath st.residual n p source sink ∧ p.Nodup ∧
      p.head? = some source ∧ p.getLast? = some sink ∧
      pedges p ≠ [] ∧
      path_flow_walk st.residual bst.parent source (n + 1) sink none = some fl ∧
      1 ≤ fl ∧ (∀ e ∈ pedges p, fl ≤ st.residual e.1 e.2) ∧
      (∀ a b, augment_walk st.residual bst.parent source fl (n + 1) sink a b =
        st.residual a b - (if (a, b) ∈ pedges p then fl else 0)
          + (if (b, a) ∈ pedges p then fl else 0)) ∧
      (∀ i (h : i < p.length), PathDist st.residual n source (p.get ⟨i, h⟩) i) ∧
      (∃ e ∈ pedges p, fl = st.residual e.1 e.2) := by
  obtain ⟨p, hc, hpath, hdist⟩ := (bfs_main hsn hns st.parent bst true hbfs).2 rfl
  have hnd : p.Nodup := nodup_of_distIndexed hdist
  have hhead : p.head? = some source := hpath.1
  have hlast : p.getLast? = some sink := hpath.2.1
  have hlt : ∀ v ∈ p, v < n := hpath.2.2.1
  have hlen_le : p.length ≤ n := length_le_of_nodup_lt hnd hlt
  have hlen2 : 2 ≤ p.length := by
    by_contra hcon
    push_neg at hcon
    have h1 : 1 ≤ p.length := List.length_pos.mpr (isPath_ne_nil hpath)
    have : p.length = 1 := by omega
    match p, this with
    | [x], _ =>
      obtain ⟨hs, ht⟩ := isPath_single_eq hpath
      exact hns (by rw [hs, ht])
  have hpedne : pedges p ≠ [] := by
    intro hc2
    have := (pedges_nil_iff p).mp hc2
    omega
  have hpos : ∀ e ∈ pedges p, 0 < st.residual e.1 e.2 :=
    chain'_pedges p _ hpath.2.2.2
  have hone : ∀ e ∈ pedges p, 1 ≤ st.residual e.1 e.2 := fun e he => hpos e he
  have hwfl := path_flow_walk_eq (R := st.residual) hc (n + 1) (by omega) none
  obtain ⟨e₀, rest, hrev⟩ : ∃ e₀ rest, (pedges p).reverse = e₀ :: rest := by
    cases hrevc : (pedges p).reverse with
    | nil =>
      exfalso
      have := congrArg List.reverse hrevc
      simp at this
      exact hpedne this
    | cons e₀ rest => exact ⟨e₀, rest, rfl⟩
  have hmemrev : ∀ e, e ∈ e₀ :: rest ↔ e ∈ pedges p := by
    intro e
    rw [← hrev, List.mem_reverse]
  have hstep0 : optMin none (st.residual e₀.1 e₀.2) = st.residual e₀.1 e₀.2 := rfl
  rw [hrev, List.foldl_cons] at hwfl
  rw [hstep0] at hwfl
  obtain ⟨fl, hfl⟩ := foldl_optMin_always_some (R := st.residual) rest (st.residual e₀.1 e₀.2)
  have hle := foldl_optMin_le (R := st.residual) rest _ fl hfl
  have hge := foldl_optMin_ge (R := st.residual) rest _ fl
    (hone e₀ ((hmemrev e₀).mp (by simp)))
    (fun e he => hone e ((hmemrev e).mp (List.mem_cons_of_mem _ he))) hfl
  refine ⟨p, fl, hc, hpath, hnd, hhead, hlast, hpedne, ?_, hge, ?_, ?_, hdist, ?_⟩
  · rw [hwfl, hfl]
  · intro e he
    rcases (hmemrev e).mpr he |> List.mem_cons.mp with he' | he'
    · rw [he']
      exact hle.1
    · exact hle.2 e he'
  · intro a b
    rw [augment_walk_eq hc (n + 1) (by omega)]
    exact listAugment_rev_closed hnd st.residual fl a b
  · rcases foldl_optMin_attained rest _ fl hfl with hm | hm
    · exact ⟨e₀, (hmemrev e₀).mp (by simp), hm⟩
    · obtain ⟨e, he, hm⟩ := hm
      exact ⟨e, (hmemrev e).mp (List.mem_cons_of_mem _ he), hm⟩

theorem sum_ite_unique {n : Nat} {P : Nat → Prop} [DecidablePred P] {v₀ : Nat} (hv₀ : P v₀)
    (hlt : v₀ < n) (huniq : ∀ v, P v → v = v₀) (fl : Int) :
    (Finset.range n).sum (fun v => if P v then fl else 0) = fl := by
  rw [Finset.sum_eq_single_of_mem v₀ (Finset.mem_range.mpr hlt)]
  · rw [if_pos hv₀]
  · intro v _ hvne
    rw [if_neg (fun hc => hvne (huniq v hc))]

theorem sum_ite_none {n : Nat} {P : Nat → Prop} [DecidablePred P] (h : ∀ v, ¬ P v) (fl : Int) :
    (Finset.range n).sum (fun v => if P v then fl else 0) = 0 :=
  Finset.sum_eq_zero (fun v _ => if_neg (h v))

theorem EKInv_step {capacity : Mat} {n source sink : Nat} {st st' : EKState} {cont : Bool}
    (hsn : source < n) (hns : sink ≠ source)
    (hInv : EKInv capacity n source sink st)
    (hstep : ekStep n source sink st = (st', cont)) :
    EKInv capacity n source sink st' := by
  obtain ⟨hnn, hps, hcons⟩ := hInv
  rcases hbfs : bfs st.residual n source sink st.parent with ⟨bst, found⟩
  cases found
  · simp only [ekStep, hbfs] at hstep
    have hst' := congrArg Prod.fst hstep
    simp at hst'
    rw [← hst']
    exact ⟨hnn, hps, hcons⟩
  · simp only [ekStep, hbfs] at hstep
    have hst' := congrArg Prod.fst hstep
    simp at hst'
    obtain ⟨p, fl, hc, hpath, hnd, hhead, hlast, hpne, hwalk, hfl1, hflle, haug, _, _⟩ :=
      ekStep_found hsn hns hbfs
    have hlt : ∀ v ∈ p, v < n := hpath.2.2.1
    have hres' : ∀ a b, st'.residual a b =
        st.residual a b - (if (a, b) ∈ pedges p then fl else 0)
          + (if (b, a) ∈ pedges p then fl else 0) := by
      intro a b
      rw [← hst']
      show augment_walk st.residual bst.parent source
        ((path_flow_walk st.residual bst.parent source (n + 1) sink none).getD 0)
        (n + 1) sink a b = _
      rw [hwalk]
      rw [show (some fl).getD (0 : Int) = fl from rfl]
      exact haug a b
    refine ⟨?_, ?_, ?_⟩
    · intro a b ha hb
      rw [hres' a b]
      by_cases h1 : (a, b) ∈ pedges p
      · have h2 : (b, a) ∉ pedges p := pedges_not_rev hnd a b h1
        rw [if_pos h1, if_neg h2]
        have := hflle (a, b) h1
        simp at this
        omega
      · by_cases h2 : (b, a) ∈ pedges p
        · rw [if_neg h1, if_pos h2]
          have := hnn a b ha hb
          omega
        · rw [if_neg h1, if_neg h2]
          have := hnn a b ha hb
          omega
    · intro a b ha hb
      rw [hres' a b, hres' b a]
      have := hps a b ha hb
      omega
    · intro w hw hwsrc hwsink
      have hin : (Finset.range n).sum (fun v => capacity v w - st'.residual v w)
          = (Finset.range n).sum (fun v => capacity v w - st.residual v w)
            + (Finset.range n).sum (fun v => if (v, w) ∈ pedges p then fl else 0)
            - (Finset.range n).sum (fun v => if (w, v) ∈ pedges p then fl else 0) := by
        rw [← Finset.sum_add_distrib, ← Finset.sum_sub_distrib]
        refine Finset.sum_congr rfl ?_
        intro v _
        rw [hres' v w]
        ring
      have hout : (Finset.range n).sum (fun v => capacity w v - st'.residual w v)
          = (Finset.range n).sum (fun v => capacity w v - st.residual w v)
            + (Finset.range n).sum (fun v => if (w, v) ∈ pedges p then fl else 0)
            - (Finset.range n).sum (fun v => if (v, w) ∈ pedges p then fl else 0) := by
        rw [← Finset.sum_add_distrib, ← Finset.sum_sub_distrib]
        refine Finset.sum_congr rfl ?_
        intro v _
        rw [hres' w v]
        ring
      have hAB : (Finset.range n).sum (fun v => if (v, w) ∈ pedges p then fl else 0)
          = (Finset.range n).sum (fun v => if (w, v) ∈ pedges p then fl else 0) := by
        by_cases hwp : w ∈ p
        · obtain ⟨vin, hvin⟩ := pedges_in_exists p source w hhead hwp hwsrc
          obtain ⟨vout, hvout⟩ := pedges_out_exists p sink w hlast hwp hwsink
          rw [sum_ite_unique hvin (hlt vin (pedges_mem_both p _ hvin).1)
            (fun v hv => pedges_in_unique hnd v vin w hv hvin) fl]
          rw [sum_ite_unique hvout (hlt vout (pedges_mem_both p _ hvout).2)
            (fun v hv => pedges_out_unique hnd w v vout hv hvout) fl]
        · rw [sum_ite_none (fun v hv => hwp (pedges_mem_both p _ hv).2) fl]
          rw [sum_ite_none (fun v hv => hwp (pedges_mem_both p _ hv).1) fl]
      rw [hin, hout, hcons w hw hwsrc hwsink, hAB]

theorem EKInv_init {capacity : Mat} {n source sink : Nat}
    (hnn : ∀ u v, u < n → v < n → 0 ≤ capacity u v) :
    EKInv capacity n source sink (ekInit capacity) := by
  refine ⟨hnn, fun u v _ _ => rfl, ?_⟩
  intro w _ _ _
  simp [ekInit]

theorem EKInv_loop {capacity : Mat} {n source sink : Nat}
    (hsn : source < n) (hns : sink ≠ source) :
    ∀ fuel st, EKInv capacity n source sink st →
      EKInv capacity n source sink (ekLoop n source sink fuel st) := by
  intro fuel
  induction fuel with
  | zero => intro st hInv; exact hInv
  | succ f ih =>
    intro st hInv
    rcases hstep : ekStep n source sink st with ⟨st₁, c⟩
    have hInv₁ := EKInv_step hsn hns hInv hstep
    rw [ekLoop, hstep]
    cases c
    · exact hInv₁
    · exact ih st₁ hInv₁

theorem EKInv_iter {capacity : Mat} {n source sink : Nat}
    (hsn : source < n) (hns : sink ≠ source)
    (hnn : ∀ u v, u < n → v < n → 0 ≤ capacity u v) :
    ∀ k, EKInv capacity n source sink (ekIter capacity n source sink k).1 := by
  intro k
  induction k with
  | zero => exact EKInv_init hnn
  | succ k ih =>
    rcases hk : ekIter capacity n source sink k with ⟨st, flag⟩
    rw [hk] at ih
    rw [ekIter, hk]
    cases flag
    · exact ih
    · show EKInv capacity n source sink (ekStep n source sink st).1
      rcases hstep : ekStep n source sink st with ⟨st₁, c⟩
      exact EKInv_step hsn hns ih hstep

theorem EKInv_final {capacity : Mat} {n source sink : Nat}
    (hval : ValidInput capacity n source sink) :
    EKInv capacity n source sink
      (ekLoop n source sink (ekFuel capacity n source) (ekInit capacity)) := by
  obtain ⟨hnn, hsn, htn, hst⟩ := hval
  exact EKInv_loop hsn (fun h => hst h.symm) _ _ (EKInv_init hnn)

/-! ### Claim theorems -/

/-- C1, counterexample: the claim "no entry of the returned flow matrix is
negative, including entries at pairs with zero original capacity" is false
on the code: for the single-edge network `0 → 1` with capacity 7 the
returned flow matrix (code_1.py line 69 computes `capacity[u][v] -
residual[u][v]` for every pair) has `flow[1][0] = -7 < 0` although
`capacity[1][0] = 0`. -/
theorem C1_counterexample :
    (edmonds_karp (matOf [[0, 7], [0, 0]]) 2 0 1).2 1 0 < 0 := by decide

/-- C1, amended: for every valid input, every entry of the returned flow
matrix satisfies `flow(u,v) ≤ capacity(u,v)` and
`flow(u,v) ≥ -capacity(v,u)`; in particular entries are non-negative at
every pair whose reverse direction has zero capacity, but entries at pairs
whose reverse edge carries flow are negative (they equal `-flow(v,u)`). -/
theorem C1_flow_capacity_bounds {capacity : Mat} {n source sink : Nat}
    (hval : ValidInput capacity n source sink) :
    ∀ u v, u < n → v < n →
      (edmonds_karp capacity n source sink).2 u v ≤ capacity u v ∧
      -(capacity v u) ≤ (edmonds_karp capacity n source sink).2 u v ∧
      (capacity v u = 0 → 0 ≤ (edmonds_karp capacity n source sink).2 u v) := by
  intro u v hu hv
  obtain ⟨hnn, hps, _⟩ := EKInv_final hval
  have h1 := hnn u v hu hv
  have h2 := hnn v u hv hu
  have h3 := hps u v hu hv
  have hflow : (edmonds_karp capacity n source sink).2 u v
      = capacity u v
        - (ekLoop n source sink (ekFuel capacity n source) (ekInit capacity)).residual u v :=
    rfl
  rw [hflow]
  refine ⟨by omega, by omega, fun h0 => by omega⟩

/-- C1, witness for the amended theorem at the single-edge input
`capacity = [[0,2],[0,0]]`, `source = 0`, `sink = 1`, pair `(0, 1)`. -/
theorem C1_flow_capacity_bounds_witness :
    ValidInput (matOf [[0, 2], [0, 0]]) 2 0 1 ∧
    ((edmonds_karp (matOf [[0, 2], [0, 0]]) 2 0 1).2 0 1 ≤ matOf [[0, 2], [0, 0]] 0 1 ∧
      -(matOf [[0, 2], [0, 0]] 1 0) ≤ (edmonds_karp (matOf [[0, 2], [0, 0]]) 2 0 1).2 0 1 ∧
      (matOf [[0, 2], [0, 0]] 1 0 = 0 →
        0 ≤ (edmonds_karp (matOf [[0, 2], [0, 0]]) 2 0 1).2 0 1)) := by
  have hval : ValidInput (matOf [[0, 2], [0, 0]]) 2 0 1 := by
    refine ⟨?_, by decide, by decide, by decide⟩
    intro u v hu hv
    interval_cases u <;> interval_cases v <;> decide
  exact ⟨hval, C1_flow_capacity_bounds hval 0 1 (by decide) (by decide)⟩

/-- C2: throughout the main loop — after initialisation and after every
augmentation — the residual matrix satisfies
`R[u][v] = capacity(u,v) - flow(u,v) + flow(v,u)` (where `flow` is the
non-negative net flow pushed so far, derived from the residual matrix as in
spec §3), and equivalently every augmentation preserves
`R[u][v] + R[v][u] = capacity(u,v) + capacity(v,u)`. -/
theorem C2_residual_flow_invariant {capacity : Mat} {n source sink : Nat}
    (hval : ValidInput capacity n source sink) :
    ∀ k u v, u < n → v < n →
      (ekIter capacity n source sink k).1.residual u v
          = capacity u v
            - flowAt (ekIter capacity n source sink k).1.residual capacity u v
            + flowAt (ekIter capacity n source sink k).1.residual capacity v u ∧
      (ekIter capacity n source sink k).1.residual u v
          + (ekIter capacity n source sink k).1.residual v u
        = capacity u v + capacity v u := by
  intro k u v hu hv
  obtain ⟨hnn, hsn, htn, hst⟩ := hval
  obtain ⟨_, hps, _⟩ := EKInv_iter hsn (fun h => hst h.symm) hnn k
  have h3 := hps u v hu hv
  unfold flowAt
  refine ⟨?_, h3⟩
  omega

/-- C2, witness at the single-edge input after one augmentation. -/
theorem C2_residual_flow_invariant_witness :
    ValidInput (matOf [[0, 2], [0, 0]]) 2 0 1 ∧
    ((ekIter (matOf [[0, 2], [0, 0]]) 2 0 1 1).1.residual 0 1
        = matOf [[0, 2], [0, 0]] 0 1
          - flowAt (ekIter (matOf [[0, 2], [0, 0]]) 2 0 1 1).1.residual
              (matOf [[0, 2], [0, 0]]) 0 1
          + flowAt (ekIter (matOf [[0, 2], [0, 0]]) 2 0 1 1).1.residual
              (matOf [[0, 2], [0, 0]]) 1 0 ∧
      (ekIter (matOf [[0, 2], [0, 0]]) 2 0 1 1).1.residual 0 1
          + (ekIter (matOf [[0, 2], [0, 0]]) 2 0 1 1).1.residual 1 0
        = matOf [[0, 2], [0, 0]] 0 1 + matOf [[0, 2], [0, 0]] 1 0) := by
  have hval : ValidInput (matOf [[0, 2], [0, 0]]) 2 0 1 := by
    refine ⟨?_, by decide, by decide, by decide⟩
    intro u v hu hv
    interval_cases u <;> interval_cases v <;> decide
  exact ⟨hval, C2_residual_flow_invariant hval 1 0 1 (by decide) (by decide)⟩

/-- C3: for every valid input, the returned flow matrix satisfies flow
conservation: at every node other than the source and the sink, the total
inflow equals the total outflow. -/
theorem C3_flow_conservation {capacity : Mat} {n source sink : Nat}
    (hval : ValidInput capacity n source sink) :
    ∀ w, w < n → w ≠ source → w ≠ sink →
      (Finset.range n).sum (fun v => (edmonds_karp capacity n source sink).2 v w)
        = (Finset.range n).sum (fun v => (edmonds_karp capacity n source sink).2 w v) := by
  intro w hw h1 h2
  obtain ⟨_, _, hcons⟩ := EKInv_final hval
  exact hcons w hw h1 h2

/-- C3, witness on Scenario A at the interior node `A = 1`. -/
theorem C3_flow_conservation_witness :
    ValidInput scenarioA 5 0 3 ∧
    (Finset.range 5).sum (fun v => (edmonds_karp scenarioA 5 0 3).2 v 1)
      = (Finset.range 5).sum (fun v => (edmonds_karp scenarioA 5 0 3).2 1 v) := by
  have hval : ValidInput scenarioA 5 0 3 := by
    refine ⟨?_, by decide, by decide, by decide⟩
    intro u v hu hv
    interval_cases u <;> interval_cases v <;> decide
  exact ⟨hval, C3_flow_conservation hval 1 (by decide) (by decide) (by decide)⟩

/-- C5: whenever the loop performs an augmentation (BFS returned `True`),
the bottleneck computed by walking the parent array from sink to source is
a positive integer (at least 1), and consequently the iteration strictly
increases the accumulated total flow. -/
theorem C5_bottleneck_positive {capacity : Mat} {n source sink : Nat}
    (hval : ValidInput capacity n source sink) :
    ∀ k, (ekIter capacity n source sink (k + 1)).2 = true →
      ∃ fl, 1 ≤ fl ∧
        path_flow_walk (ekIter capacity n source sink k).1.residual
          (bfs (ekIter capacity n source sink k).1.residual n source sink
            (ekIter capacity n source sink k).1.parent).1.parent source (n + 1) sink none
          = some fl ∧
        (ekIter capacity n source sink (k + 1)).1.max_flow
          = (ekIter capacity n source sink k).1.max_flow + fl ∧
        (ekIter capacity n source sink k).1.max_flow
          < (ekIter capacity n source sink (k + 1)).1.max_flow := by
  intro k hcont
  obtain ⟨hnn, hsn, htn, hst⟩ := hval
  rcases hk : ekIter capacity n source sink k with ⟨st, flag⟩
  rw [ekIter, hk] at hcont ⊢
  cases flag
  · simp at hcont
  · show ∃ fl, 1 ≤ fl ∧
      path_flow_walk st.residual (bfs st.residual n source sink st.parent).1.parent
        source (n + 1) sink none = some fl ∧
      (ekStep n source sink st).1.max_flow = st.max_flow + fl ∧
      st.max_flow < (ekStep n source sink st).1.max_flow
    rcases hbfs : bfs st.residual n source sink st.parent with ⟨bst, bfound⟩
    cases bfound
    · exfalso
      have : (ekStep n source sink st).2 = false := by
        simp only [ekStep, hbfs]
      rw [show (match (st, true) with
          | (st, true) => ekStep n source sink st
          | (st, false) => (st, false)) = ekStep n source sink st from rfl] at hcont
      rw [this] at hcont
      exact absurd hcont (by simp)
    · obtain ⟨p, fl, hc, hpath, hnd, hhead, hlast, hpne, hwalk, hfl1, hflle, haug, _, _⟩ :=
        ekStep_found hsn (fun h => hst h.symm) hbfs
      refine ⟨fl, hfl1, ?_, ?_, ?_⟩
      · exact hwalk
      · simp only [ekStep, hbfs]
        rw [hwalk]
        rfl
      · have : (ekStep n source sink st).1.max_flow = st.max_flow + fl := by
          simp only [ekStep, hbfs]
          rw [hwalk]
          rfl
        rw [this]
        omega

/-- C5, witness at the single-edge input: the first iteration augments by
the bottleneck 2. -/
theorem C5_bottleneck_positive_witness :
    ValidInput (matOf [[0, 2], [0, 0]]) 2 0 1 ∧
    (ekIter (matOf [[0, 2], [0, 0]]) 2 0 1 1).2 = true ∧
    (∃ fl, 1 ≤ fl ∧
      path_flow_walk (ekIter (matOf [[0, 2], [0, 0]]) 2 0 1 0).1.residual
        (bfs (ekIter (matOf [[0, 2], [0, 0]]) 2 0 1 0).1.residual 2 0 1
          (ekIter (matOf [[0, 2], [0, 0]]) 2 0 1 0).1.parent).1.parent 0 (2 + 1) 1 none
        = some fl ∧
      (ekIter (matOf [[0, 2], [0, 0]]) 2 0 1 1).1.max_flow
        = (ekIter (matOf [[0, 2], [0, 0]]) 2 0 1 0).1.max_flow + fl ∧
      (ekIter (matOf [[0, 2], [0, 0]]) 2 0 1 0).1.max_flow
        < (ekIter (matOf [[0, 2], [0, 0]]) 2 0 1 1).1.max_flow) := by
  have hval : ValidInput (matOf [[0, 2], [0, 0]]) 2 0 1 := by
    refine ⟨?_, by decide, by decide, by decide⟩
    intro u v hu hv
    interval_cases u <;> interval_cases v <;> decide
  refine ⟨hval, by decide, C5_bottleneck_positive hval 0 (by decide)⟩

/-- C8: on the Scenario A capacity matrix (5 nodes: `S=0, A=1, B=2, T=3`
plus an isolated node, edges `S→A=10, S→B=5, A→B=15, A→T=10, B→T=10`),
the solver returns `max_flow = 15`. -/
theorem C8_scenarioA_max_flow : (edmonds_karp scenarioA 5 0 3).1 = 15 := by decide

theorem bfsScan_sink_visited {R : Mat} {sink u : Nat} :
    ∀ vs st, st.visited sink = true →
      ∀ st' f, bfsScan R sink u vs st = (st', f) → f = false ∧ st'.visited sink = true := by
  intro vs
  induction vs with
  | nil =>
    intro st hv st' f hrun
    simp only [bfsScan, Prod.mk.injEq] at hrun
    obtain ⟨rfl, rfl⟩ := hrun
    exact ⟨rfl, hv⟩
  | cons v vs ih =>
    intro st hv st' f hrun
    rw [bfsScan] at hrun
    by_cases hg : st.visited v = false ∧ 0 < R u v
    · rw [if_pos hg] at hrun
      have hvsink : v ≠ sink := by
        intro hc
        rw [hc, hv] at hg
        exact absurd hg.1 (by simp)
      rw [if_neg hvsink] at hrun
      refine ih _ ?_ st' f hrun
      show upd st.visited v true sink = true
      rw [upd_other _ _ _ _ (fun hc => hvsink hc.symm)]
      exact hv
    · rw [if_neg hg] at hrun
      exact ih _ hv st' f hrun

theorem bfsLoop_sink_visited {R : Mat} {n sink : Nat} :
    ∀ fuel st, st.visited sink = true →
      ∀ st' f, bfsLoop R n sink fuel st = (st', f) → f = false := by
  intro fuel
  induction fuel with
  | zero =>
    intro st _ st' f hrun
    simp only [bfsLoop, Prod.mk.injEq] at hrun
    exact hrun.2.symm
  | succ fu ih =>
    intro st hv st' f hrun
    rw [bfsLoop] at hrun
    split at hrun
    · simp only [Prod.mk.injEq] at hrun
      exact hrun.2.symm
    · next u qs hqe =>
      split at hrun
      · next st₁ hscan =>
        have := bfsScan_sink_visited (List.range n) { st with queue := qs } hv st₁ true hscan
        exact absurd this.1 (by simp)
      · next st₁ hscan =>
        have := bfsScan_sink_visited (List.range n) { st with queue := qs } hv st₁ false hscan
        exact ih st₁ this.2 st' f hrun

theorem bfs_self_false {R : Mat} {n s : Nat} (par : Nat → Int) :
    (bfs R n s s par).2 = false := by
  rcases hrun : bfsLoop R n s (n + 1)
      ⟨upd (fun _ => false) s true, upd par s (-1), [s]⟩ with ⟨st', f⟩
  have hvs : ((⟨upd (fun _ => false) s true, upd par s (-1), [s]⟩ : BfsState)).visited s
      = true := by
    show upd (fun _ => false) s true s = true
    exact upd_self _ _ _
  have hf := bfsLoop_sink_visited (n + 1) _ hvs st' f hrun
  show (bfsLoop R n s (n + 1)
    ⟨upd (fun _ => false) s true, upd par s (-1), [s]⟩).2 = false
  rw [hrun, hf]

theorem bfsScan_no_pos {R : Mat} {sink u : Nat} :
    ∀ vs st, (∀ v ∈ vs, ¬ (0 < R u v)) →
      bfsScan R sink u vs st = (st, false) := by
  intro vs
  induction vs with
  | nil => intro st _; rfl
  | cons v vs ih =>
    intro st hnp
    rw [bfsScan, if_neg (fun hc => hnp v (by simp) hc.2)]
    exact ih st (fun w hw => hnp w (by simp [hw]))

theorem bfsLoop_empty {R : Mat} {n sink : Nat} :
    ∀ fuel st, st.queue = [] → bfsLoop R n sink fuel st = (st, false) := by
  intro fuel st hq
  cases fuel with
  | zero => rfl
  | succ fu =>
    rw [bfsLoop, hq]

theorem bfsLoop_succ_cons {R : Mat} {n sink fuel : Nat} {vis : Nat → Bool}
    {par : Nat → Int} {u : Nat} {qs : List Nat} :
    bfsLoop R n sink (fuel + 1) ⟨vis, par, u :: qs⟩ =
      match bfsScan R sink u (List.range n) ⟨vis, par, qs⟩ with
      | (st', true) => (st', true)
      | (st', false) => bfsLoop R n sink fuel st' := by
  rw [bfsLoop]

theorem bfs_row_nonpos_false {R : Mat} {n source sink : Nat}
    (h : ∀ v, v < n → R source v ≤ 0) (par : Nat → Int) :
    (bfs R n source sink par).2 = false := by
  have hscan := @bfsScan_no_pos R sink source (List.range n)
    ⟨upd (fun _ => false) source true, upd par source (-1), []⟩
    (fun v hv => not_lt.mpr (h v (List.mem_range.mp hv)))
  show (bfsLoop R n sink (n + 1)
    ⟨upd (fun _ => false) source true, upd par source (-1), [source]⟩).2 = false
  rw [bfsLoop_succ_cons]
  rw [hscan]
  show (bfsLoop R n sink n
    ⟨upd (fun _ => false) source true, upd par source (-1), []⟩).2 = false
  rw [bfsLoop_empty n _ rfl]

theorem ek_first_false {capacity : Mat} {n source sink : Nat}
    (hbfs : (bfs capacity n source sink (fun _ => -1)).2 = false) :
    (edmonds_karp capacity n source sink).1 = 0 ∧
      ∀ u v, (edmonds_karp capacity n source sink).2 u v = 0 := by
  obtain ⟨m, hm⟩ : ∃ m, ekFuel capacity n source = m + 1 :=
    ⟨((List.range n).map (fun v => (capacity source v).toNat)).sum, by unfold ekFuel; omega⟩
  rcases hb : bfs capacity n source sink (fun _ => -1) with ⟨bst, bflag⟩
  have hbf : bflag = false := by rw [hb] at hbfs; exact hbfs
  subst hbf
  have hstep : ekStep n source sink (ekInit capacity) = (⟨capacity, bst.parent, 0⟩, false) := by
    simp only [ekStep, ekInit]
    rw [hb]
  have hloop : ekLoop n source sink (ekFuel capacity n source) (ekInit capacity)
      = ⟨capacity, bst.parent, 0⟩ := by
    rw [hm, ekLoop, hstep]
  constructor
  · show (ekLoop n source sink (ekFuel capacity n source) (ekInit capacity)).max_flow = 0
    rw [hloop]
  · intro u v
    show capacity u v
      - (ekLoop n source sink (ekFuel capacity n source) (ekInit capacity)).residual u v = 0
    rw [hloop]
    show capacity u v - capacity u v = 0
    omega

/-- C10: for every square non-negative capacity matrix and in-range index
`s`, calling the solver with `source = sink = s` terminates normally and
returns `max_flow = 0` with an all-zero flow matrix: BFS marks the source
visited before exploring, so it never reports reaching the sink. -/
theorem C10_source_equals_sink {capacity : Mat} {n s : Nat} (hs : s < n)
    (hnn : ∀ u v, u < n → v < n → 0 ≤ capacity u v) :
    (edmonds_karp capacity n s s).1 = 0 ∧
      ∀ u v, (edmonds_karp capacity n s s).2 u v = 0 :=
  ek_first_false (bfs_self_false _)

/-- C10, witness at `capacity = [[0,3],[0,0]]`, `n = 2`, `source = sink = 0`. -/
theorem C10_source_equals_sink_witness :
    0 < 2 ∧ (∀ u v, u < 2 → v < 2 → 0 ≤ matOf [[0, 3], [0, 0]] u v) ∧
    ((edmonds_karp (matOf [[0, 3], [0, 0]]) 2 0 0).1 = 0 ∧
      ∀ u v, (edmonds_karp (matOf [[0, 3], [0, 0]]) 2 0 0).2 u v = 0) := by
  have hnn : ∀ u v, u < 2 → v < 2 → 0 ≤ matOf [[0, 3], [0, 0]] u v := by
    intro u v hu hv
    interval_cases u <;> interval_cases v <;> decide
  exact ⟨by decide, hnn, C10_source_equals_sink (by decide) hnn⟩

/-- C7, counterexample: the claim that the solver rejects malformed input
before running any BFS is false on the code: `edmonds_karp` performs no
input validation at all, and on the malformed capacity matrix
`[[0, -5], [0, 0]]` (negative entry) it runs BFS and computes the ordinary
result `max_flow = 0` with a zero flow entry, rather than rejecting. -/
theorem C7_counterexample :
    (edmonds_karp (matOf [[0, -5], [0, 0]]) 2 0 1).1 = 0 ∧
    (edmonds_karp (matOf [[0, -5], [0, 0]]) 2 0 1).2 0 1 = 0 := by
  exact ⟨by decide, by decide⟩

/-- C7, amended: the solver performs no input validation whatsoever:
instead of rejecting malformed input it computes a result. In particular,
whenever every capacity out of the source is non-positive (e.g. negative
capacities), it silently returns `max_flow = 0` and an all-zero flow
matrix. (Out-of-range indices only surface as runtime indexing errors
inside BFS, not as a pre-BFS validation; only the interactive reader
`read_graph` validates row lengths.) -/
theorem C7_no_validation {capacity : Mat} {n source sink : Nat}
    (hnp : ∀ v, v < n → capacity source v ≤ 0) :
    (edmonds_karp capacity n source sink).1 = 0 ∧
      ∀ u v, (edmonds_karp capacity n source sink).2 u v = 0 :=
  ek_first_false (bfs_row_nonpos_false hnp _)

/-- C7, witness at the malformed (negative-capacity) input
`[[0, -5], [0, 0]]`. -/
theorem C7_no_validation_witness :
    (∀ v, v < 2 → matOf [[0, -5], [0, 0]] 0 v ≤ 0) ∧
    ((edmonds_karp (matOf [[0, -5], [0, 0]]) 2 0 1).1 = 0 ∧
      ∀ u v, (edmonds_karp (matOf [[0, -5], [0, 0]]) 2 0 1).2 u v = 0) := by
  have hnp : ∀ v, v < 2 → matOf [[0, -5], [0, 0]] 0 v ≤ 0 := by
    intro v hv
    interval_cases v <;> decide
  exact ⟨hnp, C7_no_validation hnp⟩

/-- C6: for every residual matrix and in-range distinct source and sink,
the BFS returns `True` iff a source-to-sink path along strictly positive
residual entries exists; and when it returns `True`, the path reconstructed
from the parent array is such a path of minimum length in edges. -/
theorem C6_bfs_finds_shortest {R : Mat} {n source sink : Nat} (par₀ : Nat → Int)
    (hsn : source < n) (htn : sink < n) (hst : source ≠ sink) :
    ((bfs R n source sink par₀).2 = true ↔ ∃ p, IsPath R n p source sink) ∧
    ((bfs R n source sink par₀).2 = true →
      ∃ p, parentChain (bfs R n source sink par₀).1.parent source n sink = some p ∧
        IsPath R n p source sink ∧
        ∀ q, IsPath R n q source sink → p.length ≤ q.length) := by
  have hns : sink ≠ source := fun h => hst h.symm
  rcases hrun : bfs R n source sink par₀ with ⟨bst, found⟩
  have hmain := bfs_main hsn hns par₀ bst found hrun
  constructor
  · constructor
    · intro hf
      cases found
      · exact absurd hf (by simp)
      · obtain ⟨p, _, hpath, _⟩ := hmain.2 rfl
        exact ⟨p, hpath⟩
    · intro hpath
      cases found
      · exact absurd hpath (bfs_false_no_path hsn hns hrun)
      · rfl
  · intro hf
    cases found
    · exact absurd hf (by simp)
    · obtain ⟨p, hc, hpath, hdist⟩ := hmain.2 rfl
      refine ⟨p, hc, hpath, ?_⟩
      have hne := isPath_ne_nil hpath
      have hlast := hpath.2.1
      have hd := distIndexed_last hne hlast hdist
      intro q hq
      have h1 := pathDist_le_path hd hq
      have h2 : 1 ≤ p.length := List.length_pos.mpr hne
      omega

/-- C6, witness on the single positive edge `0 → 1`. -/
theorem C6_bfs_finds_shortest_witness :
    0 < 2 ∧ 1 < 2 ∧ (0 : Nat) ≠ 1 ∧
    (((bfs (matOf [[0, 5], [0, 0]]) 2 0 1 (fun _ => -1)).2 = true ↔
        ∃ p, IsPath (matOf [[0, 5], [0, 0]]) 2 p 0 1) ∧
      ((bfs (matOf [[0, 5], [0, 0]]) 2 0 1 (fun _ => -1)).2 = true →
        ∃ p, parentChain (bfs (matOf [[0, 5], [0, 0]]) 2 0 1 (fun _ => -1)).1.parent 0 2 1
            = some p ∧
          IsPath (matOf [[0, 5], [0, 0]]) 2 p 0 1 ∧
          ∀ q, IsPath (matOf [[0, 5], [0, 0]]) 2 q 0 1 → p.length ≤ q.length)) := by
  exact ⟨by decide, by decide, by decide,
    C6_bfs_finds_shortest (fun _ => -1) (by decide) (by decide) (by decide)⟩

/-! ### Termination of the main loop -/

theorem ekVariant_decreases {n source sink : Nat} {st st' : EKState}
    (hsn : source < n) (hns : sink ≠ source)
    (hstep : ekStep n source sink st = (st', true)) :
    ekVariant n source st' < ekVariant n source st := by
  rcases hbfs : bfs st.residual n source sink st.parent with ⟨bst, found⟩
  cases found
  · simp only [ekStep, hbfs, Prod.mk.injEq] at hstep
    exact absurd hstep.2 (by simp)
  · obtain ⟨p, fl, hc, hpath, hnd, hhead, hlast, hpne, hwalk, hfl1, hflle, haug, _, _⟩ :=
      ekStep_found hsn hns hbfs
    simp only [ekStep, hbfs] at hstep
    have hst' := congrArg Prod.fst hstep
    simp at hst'
    have hres' : ∀ a b, st'.residual a b =
        st.residual a b - (if (a, b) ∈ pedges p then fl else 0)
          + (if (b, a) ∈ pedges p then fl else 0) := by
      intro a b
      rw [← hst']
      show augment_walk st.residual bst.parent source
        ((path_flow_walk st.residual bst.parent source (n + 1) sink none).getD 0)
        (n + 1) sink a b = _
      rw [hwalk]
      rw [show (some fl).getD (0 : Int) = fl from rfl]
      exact haug a b
    have hlt : ∀ v ∈ p, v < n := hpath.2.2.1
    have hsrcp : source ∈ p := List.mem_of_mem_head? (by rw [hhead]; rfl)
    have hsrcsink : source ≠ sink := fun h => hns h.symm
    obtain ⟨v₁, hv₁⟩ := pedges_out_exists p sink source hlast hsrcp hsrcsink
    have hnoin := pedges_no_in_head hnd hhead
    have hrow : ∀ v, st'.residual source v =
        st.residual source v - (if (source, v) ∈ pedges p then fl else 0) := by
      intro v
      rw [hres' source v]
      rw [if_neg (hnoin v)]
      omega
    unfold ekVariant
    refine Finset.sum_lt_sum ?_ ⟨v₁, Finset.mem_range.mpr
      (hlt v₁ (pedges_mem_both p _ hv₁).2), ?_⟩
    · intro v _
      rw [hrow v]
      by_cases hm : (source, v) ∈ pedges p
      · rw [if_pos hm]
        have := hflle _ hm
        simp at this
        omega
      · rw [if_neg hm]
        omega
    · rw [hrow v₁, if_pos hv₁]
      have := hflle _ hv₁
      simp at this
      omega

theorem ekIter_flag_mono {capacity : Mat} {n source sink : Nat} :
    ∀ k, (ekIter capacity n source sink (k + 1)).2 = true →
      (ekIter capacity n source sink k).2 = true := by
  intro k h
  rcases hk : ekIter capacity n source sink k with ⟨st, flag⟩
  cases flag
  · rw [ekIter, hk] at h
    exact absurd h (by simp)
  · rfl

theorem ekIter_variant_bound {capacity : Mat} {n source sink : Nat}
    (hsn : source < n) (hns : sink ≠ source) :
    ∀ k, (ekIter capacity n source sink k).2 = true →
      k + ekVariant n source (ekIter capacity n source sink k).1
        ≤ ekVariant n source (ekInit capacity) := by
  intro k
  induction k with
  | zero =>
    intro _
    simp [ekIter]
  | succ k ih =>
    intro hflag
    have hprev := ekIter_flag_mono k hflag
    have hle := ih hprev
    rcases hk : ekIter capacity n source sink k with ⟨st, flag⟩
    rw [hk] at hprev
    have hflag' : flag = true := hprev
    subst hflag'
    rw [hk] at hle
    rw [ekIter, hk] at hflag ⊢
    have hred : (match (st, true) with
        | (st, true) => ekStep n source sink st
        | (st, false) => (st, false)) = ekStep n source sink st := rfl
    rw [hred] at hflag ⊢
    rcases hstep : ekStep n source sink st with ⟨st₁, c⟩
    rw [hstep] at hflag
    have hc : c = true := hflag
    subst hc
    have hdec := ekVariant_decreases hsn hns hstep
    simp only at hle ⊢
    omega

theorem ekIter_stops {capacity : Mat} {n source sink : Nat}
    (hsn : source < n) (hns : sink ≠ source) :
    ∃ k, k ≤ ekVariant n source (ekInit capacity) + 1 ∧
      (ekIter capacity n source sink k).2 = false := by
  refine ⟨ekVariant n source (ekInit capacity) + 1, le_refl _, ?_⟩
  cases hflag : (ekIter capacity n source sink (ekVariant n source (ekInit capacity) + 1)).2
  · rfl
  · exfalso
    have := ekIter_variant_bound hsn hns _ hflag
    omega

/-! ### The solver reads only the capacity entries of the n-by-n block -/

theorem bfsScan_congr {R R' : Mat} {sink u : Nat} :
    ∀ vs st, (∀ v ∈ vs, R u v = R' u v) →
      bfsScan R sink u vs st = bfsScan R' sink u vs st := by
  intro vs
  induction vs with
  | nil => intro st _; rfl
  | cons v vs ih =>
    intro st hag
    rw [bfsScan, bfsScan]
    rw [hag v (by simp)]
    by_cases hg : st.visited v = false ∧ 0 < R' u v
    · rw [if_pos hg, if_pos hg]
      by_cases hs : v = sink
      · rw [if_pos hs, if_pos hs]
      · rw [if_neg hs, if_neg hs]
        exact ih _ (fun w hw => hag w (by simp [hw]))
    · rw [if_neg hg, if_neg hg]
      exact ih _ (fun w hw => hag w (by simp [hw]))

theorem bfsScan_queue_lt {R : Mat} {n sink u : Nat} :
    ∀ vs st, (∀ v ∈ vs, v < n) → (∀ q ∈ st.queue, q < n) →
      ∀ st' f, bfsScan R sink u vs st = (st', f) → ∀ q ∈ st'.queue, q < n := by
  intro vs
  induction vs with
  | nil =>
    intro st _ hq st' f hrun
    simp only [bfsScan, Prod.mk.injEq] at hrun
    obtain ⟨rfl, rfl⟩ := hrun
    exact hq
  | cons v vs ih =>
    intro st hvs hq st' f hrun
    rw [bfsScan] at hrun
    by_cases hg : st.visited v = false ∧ 0 < R u v
    · rw [if_pos hg] at hrun
      have hq₁ : ∀ q ∈ st.queue ++ [v], q < n := by
        intro q hmem
        rcases List.mem_append.mp hmem with h | h
        · exact hq q h
        · simp at h
          rw [h]
          exact hvs v (by simp)
      by_cases hs : v = sink
      · rw [if_pos hs] at hrun
        simp only [Prod.mk.injEq] at hrun
        obtain ⟨rfl, rfl⟩ := hrun
        exact hq₁
      · rw [if_neg hs] at hrun
        exact ih _ (fun w hw => hvs w (by simp [hw])) hq₁ st' f hrun
    · rw [if_neg hg] at hrun
      exact ih _ (fun w hw => hvs w (by simp [hw])) hq st' f hrun

theorem bfsLoop_congr {R R' : Mat} {n sink : Nat}
    (hag : ∀ u v, u < n → v < n → R u v = R' u v) :
    ∀ fuel st, (∀ q ∈ st.queue, q < n) →
      bfsLoop R n sink fuel st = bfsLoop R' n sink fuel st := by
  intro fuel
  induction fuel with
  | zero => intro st _; rfl
  | succ fu ih =>
    intro st hq
    rw [bfsLoop, bfsLoop]
    cases hqe : st.queue with
    | nil => rfl
    | cons u qs =>
      have hun : u < n := hq u (by rw [hqe]; simp)
      have hcongr : bfsScan R sink u (List.range n) { st with queue := qs }
          = bfsScan R' sink u (List.range n) { st with queue := qs } :=
        bfsScan_congr (List.range n) _ (fun v hv => hag u v hun (List.mem_range.mp hv))
      show (match bfsScan R sink u (List.range n) { st with queue := qs } with
          | (st', true) => (st', true)
          | (st', false) => bfsLoop R n sink fu st') =
        (match bfsScan R' sink u (List.range n) { st with queue := qs } with
          | (st', true) => (st', true)
          | (st', false) => bfsLoop R' n sink fu st')
      rw [hcongr]
      rcases hscan : bfsScan R' sink u (List.range n) { st with queue := qs } with ⟨st₁, f⟩
      cases f
      · have hq₁ : ∀ q ∈ st₁.queue, q < n := by
          refine bfsScan_queue_lt (List.range n) { st with queue := qs }
            (fun v hv => List.mem_range.mp hv) ?_ st₁ false hscan
          intro q hmem
          refine hq q ?_
          rw [hqe]
          exact List.mem_cons_of_mem u hmem
        exact ih st₁ hq₁
      · rfl

theorem bfs_congr {R R' : Mat} {n source sink : Nat} (hsn : source < n)
    (hag : ∀ u v, u < n → v < n → R u v = R' u v) (par : Nat → Int) :
    bfs R n source sink par = bfs R' n source sink par := by
  unfold bfs
  refine bfsLoop_congr hag (n + 1) _ ?_
  intro q hq
  simp at hq
  rw [hq]
  exact hsn

theorem foldl_optMin_congr {R R' : Mat} :
    ∀ (es : List (Nat × Nat)), (∀ e ∈ es, R e.1 e.2 = R' e.1 e.2) →
      ∀ acc, es.foldl (fun a e => some (optMin a (R e.1 e.2))) acc
        = es.foldl (fun a e => some (optMin a (R' e.1 e.2))) acc := by
  intro es
  induction es with
  | nil => intro _ acc; rfl
  | cons e es ih =>
    intro hag acc
    rw [List.foldl_cons, List.foldl_cons, hag e (by simp)]
    exact ih (fun e' he' => hag e' (by simp [he'])) _

theorem ekStep_congr {n source sink : Nat} {st stb : EKState}
    (hsn : source < n) (hns : sink ≠ source)
    (hpar : st.parent = stb.parent) (hmf : st.max_flow = stb.max_flow)
    (hag : ∀ u v, u < n → v < n → st.residual u v = stb.residual u v) :
    ∃ st' stb' c, ekStep n source sink st = (st', c) ∧
      ekStep n source sink stb = (stb', c) ∧
      st'.parent = stb'.parent ∧ st'.max_flow = stb'.max_flow ∧
      (∀ u v, u < n → v < n → st'.residual u v = stb'.residual u v) := by
  have hbc : bfs st.residual n source sink st.parent
      = bfs stb.residual n source sink stb.parent := by
    rw [hpar]
    exact bfs_congr hsn hag _
  rcases hbfs : bfs st.residual n source sink st.parent with ⟨bst, found⟩
  have hbfsb : bfs stb.residual n source sink stb.parent = (bst, found) := by
    rw [← hbc, hbfs]
  cases found
  · refine ⟨⟨st.residual, bst.parent, st.max_flow⟩, ⟨stb.residual, bst.parent, stb.max_flow⟩,
      false, ?_, ?_, rfl, hmf, hag⟩
    · simp only [ekStep, hbfs]
    · simp only [ekStep, hbfsb]
  · obtain ⟨p, fl, hc, hpath, hnd, hhead, hlast, hpne, hwalk, hfl1, hflle, haug, _, _⟩ :=
      ekStep_found hsn hns hbfs
    have hlt : ∀ v ∈ p, v < n := hpath.2.2.1
    have hlen_le : p.length ≤ n := length_le_of_nodup_lt hnd hlt
    have hedge_agree : ∀ e ∈ (pedges p).reverse,
        st.residual e.1 e.2 = stb.residual e.1 e.2 := by
      intro e he
      rw [List.mem_reverse] at he
      exact hag e.1 e.2 (hlt _ (pedges_mem_both p _ he).1) (hlt _ (pedges_mem_both p _ he).2)
    have hwalkb : path_flow_walk stb.residual bst.parent source (n + 1) sink none
        = some fl := by
      rw [path_flow_walk_eq hc (n + 1) (by omega) none]
      rw [← foldl_optMin_congr _ hedge_agree none]
      rw [← path_flow_walk_eq hc (n + 1) (by omega) none]
      exact hwalk
    have haugb : ∀ a b, augment_walk stb.residual bst.parent source fl (n + 1) sink a b =
        stb.residual a b - (if (a, b) ∈ pedges p then fl else 0)
          + (if (b, a) ∈ pedges p then fl else 0) := by
      intro a b
      rw [augment_walk_eq hc (n + 1) (by omega)]
      exact listAugment_rev_closed hnd stb.residual fl a b
    have hstep : ekStep n source sink st
        = (⟨augment_walk st.residual bst.parent source fl (n + 1) sink, bst.parent,
            st.max_flow + fl⟩, true) := by
      simp only [ekStep, hbfs, hwalk]
      rfl
    have hstepb : ekStep n source sink stb
        = (⟨augment_walk stb.residual bst.parent source fl (n + 1) sink, bst.parent,
            stb.max_flow + fl⟩, true) := by
      simp only [ekStep, hbfsb, hwalkb]
      rfl
    refine ⟨_, _, true, hstep, hstepb, rfl, ?_, ?_⟩
    · show st.max_flow + fl = stb.max_flow + fl
      rw [hmf]
    · intro u v hu hv
      show augment_walk st.residual bst.parent source fl (n + 1) sink u v
        = augment_walk stb.residual bst.parent source fl (n + 1) sink u v
      rw [haug u v, haugb u v]
      rw [hag u v hu hv]

theorem ekLoop_congr {n source sink : Nat} (hsn : source < n) (hns : sink ≠ source) :
    ∀ fuel (st stb : EKState), st.parent = stb.parent → st.max_flow = stb.max_flow →
      (∀ u v, u < n → v < n → st.residual u v = stb.residual u v) →
      (ekLoop n source sink fuel st).max_flow = (ekLoop n source sink fuel stb).max_flow := by
  intro fuel
  induction fuel with
  | zero => intro st stb _ hmf _; exact hmf
  | succ fu ih =>
    intro st stb hpar hmf hag
    obtain ⟨st', stb', c, hstep, hstepb, hpar', hmf', hag'⟩ :=
      ekStep_congr hsn hns hpar hmf hag
    rw [ekLoop, hstep, ekLoop, hstepb]
    cases c
    · exact hmf'
    · exact ih st' stb' hpar' hmf' hag'

/-- C9: the solver is a pure in-memory function of its arguments: it
initialises its residual matrix as a copy of the capacity matrix
(code_no_plot.py line 45) and mutates only that copy, so the caller's
matrix is left unchanged and the returned total flow depends only on the
`n × n` capacity entries; in particular two successive calls on the same
untouched input return the same `max_flow`. -/
theorem C9_solver_pure {capacity capacity' : Mat} {n source sink : Nat}
    (hsn : source < n)
    (hagree : ∀ u v, u < n → v < n → capacity u v = capacity' u v) :
    (edmonds_karp capacity n source sink).1 = (edmonds_karp capacity' n source sink).1 := by
  by_cases hns : sink = source
  · subst hns
    have h1 := @ek_first_false capacity n sink sink
      (bfs_self_false _)
    have h2 := @ek_first_false capacity' n sink sink
      (bfs_self_false _)
    rw [h1.1, h2.1]
  · have hfuel : ekFuel capacity n source = ekFuel capacity' n source := by
      unfold ekFuel
      have : (List.range n).map (fun v => (capacity source v).toNat)
          = (List.range n).map (fun v => (capacity' source v).toNat) := by
        refine List.map_congr_left ?_
        intro v hv
        rw [hagree source v hsn (List.mem_range.mp hv)]
      rw [this]
    show (ekLoop n source sink (ekFuel capacity n source) (ekInit capacity)).max_flow
      = (ekLoop n source sink (ekFuel capacity' n source) (ekInit capacity')).max_flow
    rw [← hfuel]
    exact ekLoop_congr hsn hns _ (ekInit capacity) (ekInit capacity') rfl rfl hagree

/-- C9, witness: two capacity matrices that agree on the 2-by-2 block but
differ outside it give the same `max_flow`. -/
theorem C9_solver_pure_witness :
    0 < 2 ∧ (∀ u v, u < 2 → v < 2 →
      matOf [[0, 4], [0, 0]] u v = matOf [[0, 4], [0, 0], [9, 9]] u v) ∧
    (edmonds_karp (matOf [[0, 4], [0, 0]]) 2 0 1).1
      = (edmonds_karp (matOf [[0, 4], [0, 0], [9, 9]]) 2 0 1).1 := by
  have hagree : ∀ u v, u < 2 → v < 2 →
      matOf [[0, 4], [0, 0]] u v = matOf [[0, 4], [0, 0], [9, 9]] u v := by
    intro u v hu hv
    interval_cases u <;> interval_cases v <;> decide
  exact ⟨by decide, hagree, C9_solver_pure (by decide) hagree⟩

/-! ### Distance monotonicity and the polynomial augmentation bound -/

theorem pedges_index : ∀ (p : List Nat) (a b : Nat), (a, b) ∈ pedges p →
    ∃ i, ∃ h : i + 1 < p.length,
      p.get ⟨i, Nat.lt_of_succ_lt h⟩ = a ∧ p.get ⟨i + 1, h⟩ = b := by
  intro p
  induction p with
  | nil => intro a b he; simp [pedges] at he
  | cons x p ih =>
    intro a b he
    cases p with
    | nil => simp [pedges] at he
    | cons y rest =>
      rw [pedges] at he
      rcases List.mem_cons.mp he with he | he
      · simp at he
        refine ⟨0, by simp, ?_, ?_⟩
        · show x = a
          rw [he.1]
        · show y = b
          rw [he.2]
      · obtain ⟨i, h, ha, hb⟩ := ih a b he
        refine ⟨i + 1, by simp at h ⊢; omega, ?_, ?_⟩
        · exact ha
        · exact hb


theorem augment_dist_mono {R R' : Mat} {n source : Nat} {p : List Nat} {fl : Int}
    (hsn : source < n)
    (hdist : ∀ i (h : i < p.length), PathDist R n source (p.get ⟨i, h⟩) i)
    (hres : ∀ a b, R' a b = R a b - (if (a, b) ∈ pedges p then fl else 0)
      + (if (b, a) ∈ pedges p then fl else 0))
    (hflpos : 0 ≤ fl) :
    ∀ d' v, PathDist R' n source v d' → ∃ d, PathDist R n source v d ∧ d ≤ d' := by
  have hedge : ∀ a b, 0 < R' a b → 0 < R a b ∨ (b, a) ∈ pedges p := by
    intro a b h
    by_cases hba : (b, a) ∈ pedges p
    · exact Or.inr hba
    · left
      rw [hres a b, if_neg hba] at h
      by_cases hab : (a, b) ∈ pedges p
      · rw [if_pos hab] at h
        omega
      · rw [if_neg hab] at h
        omega
  intro d'
  induction d' using Nat.strong_induction_on with
  | _ d' ih =>
    intro v hv
    cases d' with
    | zero =>
      have hvs : v = source := pathDist_zero hv
      subst hvs
      exact ⟨0, pathDist_self hsn, le_refl 0⟩
    | succ e =>
      obtain ⟨u, hun, hedge', hu⟩ := pathDist_pred hv
      obtain ⟨du, hdu, hdule⟩ := ih e (by omega) u hu
      have hvn : v < n := pathDist_target_lt hv
      rcases hedge u v hedge' with hold | hnew
      · obtain ⟨dv, hdv, hdvle⟩ := pathDist_step_le hdu hold hvn
        exact ⟨dv, hdv, by omega⟩
      · obtain ⟨i, hilt, hvi, hui⟩ := pedges_index p v u hnew
        have hdv := hdist i (Nat.lt_of_succ_lt hilt)
        have hdu2 := hdist (i + 1) hilt
        rw [hvi] at hdv
        rw [hui] at hdu2
        have hdui : du = i + 1 := pathDist_unique hdu hdu2
        exact ⟨i, hdv, by omega⟩

theorem ekStep_dist_mono {n source sink : Nat} {st st' : EKState}
    (hsn : source < n) (hns : sink ≠ source)
    (hstep : ekStep n source sink st = (st', true)) :
    ∀ d' v, PathDist st'.residual n source v d' →
      ∃ d, PathDist st.residual n source v d ∧ d ≤ d' := by
  rcases hbfs : bfs st.residual n source sink st.parent with ⟨bst, found⟩
  cases found
  · simp only [ekStep, hbfs, Prod.mk.injEq] at hstep
    exact absurd hstep.2 (by simp)
  · obtain ⟨p, fl, hc, hpath, hnd, hhead, hlast, hpne, hwalk, hfl1, hflle, haug, hdist, _⟩ :=
      ekStep_found hsn hns hbfs
    simp only [ekStep, hbfs] at hstep
    have hst' := congrArg Prod.fst hstep
    simp at hst'
    have hres' : ∀ a b, st'.residual a b =
        st.residual a b - (if (a, b) ∈ pedges p then fl else 0)
          + (if (b, a) ∈ pedges p then fl else 0) := by
      intro a b
      rw [← hst']
      show augment_walk st.residual bst.parent source
        ((path_flow_walk st.residual bst.parent source (n + 1) sink none).getD 0)
        (n + 1) sink a b = _
      rw [hwalk]
      rw [show (some fl).getD (0 : Int) = fl from rfl]
      exact haug a b
    exact augment_dist_mono hsn hdist hres' (by omega)

theorem ekStep_residual_increase {n source sink : Nat} {st st' : EKState} {c : Bool}
    (hsn : source < n) (hns : sink ≠ source)
    (hstep : ekStep n source sink st = (st', c)) :
    ∀ x y, st.residual x y < st'.residual x y →
      ∃ dy, PathDist st.residual n source y dy ∧
        PathDist st.residual n source x (dy + 1) := by
  intro x y hlt
  rcases hbfs : bfs st.residual n source sink st.parent with ⟨bst, found⟩
  cases found
  · exfalso
    simp only [ekStep, hbfs] at hstep
    have hst' := congrArg Prod.fst hstep
    simp at hst'
    rw [← hst'] at hlt
    exact absurd hlt (by simp)
  · obtain ⟨p, fl, hc, hpath, hnd, hhead, hlast, hpne, hwalk, hfl1, hflle, haug, hdist, _⟩ :=
      ekStep_found hsn hns hbfs
    simp only [ekStep, hbfs] at hstep
    have hst' := congrArg Prod.fst hstep
    simp at hst'
    have hres' : ∀ a b, st'.residual a b =
        st.residual a b - (if (a, b) ∈ pedges p then fl else 0)
          + (if (b, a) ∈ pedges p then fl else 0) := by
      intro a b
      rw [← hst']
      show augment_walk st.residual bst.parent source
        ((path_flow_walk st.residual bst.parent source (n + 1) sink none).getD 0)
        (n + 1) sink a b = _
      rw [hwalk]
      rw [show (some fl).getD (0 : Int) = fl from rfl]
      exact haug a b
    rw [hres' x y] at hlt
    by_cases hyx : (y, x) ∈ pedges p
    · obtain ⟨i, hilt, hyi, hxi⟩ := pedges_index p y x hyx
      have hdy := hdist i (Nat.lt_of_succ_lt hilt)
      have hdx := hdist (i + 1) hilt
      rw [hyi] at hdy
      rw [hxi] at hdx
      exact ⟨i, hdy, hdx⟩
    · exfalso
      rw [if_neg hyx] at hlt
      by_cases hxy : (x, y) ∈ pedges p
      · rw [if_pos hxy] at hlt
        omega
      · rw [if_neg hxy] at hlt
        omega

theorem ekIter_succ_cases {capacity : Mat} {n source sink : Nat} (k : Nat) :
    (ekIter capacity n source sink (k + 1) = ekIter capacity n source sink k ∧
      (ekIter capacity n source sink k).2 = false) ∨
    ((ekIter capacity n source sink k).2 = true ∧
      ekStep n source sink (ekIter capacity n source sink k).1
        = ekIter capacity n source sink (k + 1)) := by
  rcases hk : ekIter capacity n source sink k with ⟨st, flag⟩
  cases flag
  · left
    rw [ekIter, hk]
    exact ⟨rfl, rfl⟩
  · right
    rw [ekIter, hk]
    exact ⟨rfl, rfl⟩

theorem ekStep_false_residual {n source sink : Nat} {st st' : EKState}
    (hstep : ekStep n source sink st = (st', false)) : st'.residual = st.residual := by
  rcases hbfs : bfs st.residual n source sink st.parent with ⟨bst, found⟩
  cases found
  · simp only [ekStep, hbfs] at hstep
    have := congrArg Prod.fst hstep
    simp at this
    rw [← this]
  · simp only [ekStep, hbfs] at hstep
    have := congrArg Prod.snd hstep
    simp at this

theorem ekIter_dist_mono_succ {capacity : Mat} {n source sink : Nat}
    (hsn : source < n) (hns : sink ≠ source) (k : Nat) :
    ∀ d v, PathDist (ekIter capacity n source sink (k + 1)).1.residual n source v d →
      ∃ d', PathDist (ekIter capacity n source sink k).1.residual n source v d' ∧ d' ≤ d := by
  rcases @ekIter_succ_cases capacity n source sink k
    with ⟨heq, _⟩ | ⟨hflag, hstep⟩
  · rw [heq]
    exact fun d v h => ⟨d, h, le_refl d⟩
  · rcases hpair : ekIter capacity n source sink (k + 1) with ⟨st', c⟩
    rw [hpair] at hstep
    cases c
    · have hres := ekStep_false_residual hstep
      intro d v h
      refine ⟨d, ?_, le_refl d⟩
      rw [← hres]
      exact h
    · exact fun d v h => ekStep_dist_mono hsn hns hstep d v h

theorem ekIter_dist_mono {capacity : Mat} {n source sink : Nat}
    (hsn : source < n) (hns : sink ≠ source) :
    ∀ j k, j ≤ k →
      ∀ d v, PathDist (ekIter capacity n source sink k).1.residual n source v d →
        ∃ d', PathDist (ekIter capacity n source sink j).1.residual n source v d' ∧ d' ≤ d := by
  intro j k hjk
  induction k with
  | zero =>
    have : j = 0 := by omega
    subst this
    exact fun d v h => ⟨d, h, le_refl d⟩
  | succ k ih =>
    by_cases hj : j = k + 1
    · subst hj
      exact fun d v h => ⟨d, h, le_refl d⟩
    · have hle : j ≤ k := by omega
      intro d v h
      obtain ⟨d₁, h₁, hle₁⟩ := ekIter_dist_mono_succ hsn hns k d v h
      obtain ⟨d', h', hle'⟩ := ih hle d₁ v h₁
      exact ⟨d', h', by omega⟩

theorem ekIter_revival {capacity : Mat} {n source sink : Nat} {a b : Nat} :
    ∀ j₂ j₁, j₁ ≤ j₂ →
      (ekIter capacity n source sink j₁).1.residual a b ≤ 0 →
      0 < (ekIter capacity n source sink j₂).1.residual a b →
      ∃ m, j₁ ≤ m ∧ m < j₂ ∧
        (ekIter capacity n source sink m).1.residual a b
          < (ekIter capacity n source sink (m + 1)).1.residual a b := by
  intro j₂
  induction j₂ with
  | zero =>
    intro j₁ hle h0 hpos
    have : j₁ = 0 := by omega
    subst this
    omega
  | succ j ih =>
    intro j₁ hle h0 hpos
    by_cases hj : j₁ = j + 1
    · subst hj
      omega
    · have hle' : j₁ ≤ j := by omega
      by_cases hinc : (ekIter capacity n source sink j).1.residual a b
          < (ekIter capacity n source sink (j + 1)).1.residual a b
      · exact ⟨j, hle', by omega, hinc⟩
      · push_neg at hinc
        have hposj : 0 < (ekIter capacity n source sink j).1.residual a b := by omega
        obtain ⟨m, h1, h2, h3⟩ := ih j₁ hle' h0 hposj
        exact ⟨m, h1, by omega, h3⟩

theorem ekIter_increase {capacity : Mat} {n source sink : Nat}
    (hsn : source < n) (hns : sink ≠ source) {x y : Nat} (k : Nat)
    (hinc : (ekIter capacity n source sink k).1.residual x y
      < (ekIter capacity n source sink (k + 1)).1.residual x y) :
    ∃ dy, PathDist (ekIter capacity n source sink k).1.residual n source y dy ∧
      PathDist (ekIter capacity n source sink k).1.residual n source x (dy + 1) := by
  rcases @ekIter_succ_cases capacity n source sink k
    with ⟨heq, _⟩ | ⟨hflag, hstep⟩
  · rw [heq] at hinc
    exact absurd hinc (lt_irrefl _)
  · rcases hpair : ekIter capacity n source sink (k + 1) with ⟨st', c⟩
    rw [hpair] at hstep hinc
    exact ekStep_residual_increase hsn hns hstep x y hinc

theorem ekStep_critical {n source sink : Nat} {st st' : EKState}
    (hsn : source < n) (hns : sink ≠ source)
    (hstep : ekStep n source sink st = (st', true)) :
    ∃ a b da, a < n ∧ b < n ∧ da + 1 < n ∧
      PathDist st.residual n source a da ∧
      PathDist st.residual n source b (da + 1) ∧
      0 < st.residual a b ∧
      st'.residual a b ≤ 0 := by
  rcases hbfs : bfs st.residual n source sink st.parent with ⟨bst, found⟩
  cases found
  · simp only [ekStep, hbfs, Prod.mk.injEq] at hstep
    exact absurd hstep.2 (by simp)
  · obtain ⟨p, fl, hc, hpath, hnd, hhead, hlast, hpne, hwalk, hfl1, hflle, haug, hdist, hcrit⟩ :=
      ekStep_found hsn hns hbfs
    simp only [ekStep, hbfs] at hstep
    have hst' := congrArg Prod.fst hstep
    simp at hst'
    have hres' : ∀ a b, st'.residual a b =
        st.residual a b - (if (a, b) ∈ pedges p then fl else 0)
          + (if (b, a) ∈ pedges p then fl else 0) := by
      intro a b
      rw [← hst']
      show augment_walk st.residual bst.parent source
        ((path_flow_walk st.residual bst.parent source (n + 1) sink none).getD 0)
        (n + 1) sink a b = _
      rw [hwalk]
      rw [show (some fl).getD (0 : Int) = fl from rfl]
      exact haug a b
    obtain ⟨e, he, hfle⟩ := hcrit
    obtain ⟨i, hih, hgi, hgi1⟩ := pedges_index p e.1 e.2 he
    have hlen_le : p.length ≤ n := length_le_of_nodup_lt hnd hpath.2.2.1
    have hmem := pedges_mem_both p e he
    refine ⟨e.1, e.2, i, hpath.2.2.1 e.1 hmem.1, hpath.2.2.1 e.2 hmem.2, by omega,
      ?_, ?_, ?_, ?_⟩
    · have := hdist i (Nat.lt_of_succ_lt hih)
      rw [hgi] at this
      exact this
    · have := hdist (i + 1) hih
      rw [hgi1] at this
      exact this
    · exact chain'_pedges p (fun a b => 0 < st.residual a b) hpath.2.2.2 e he
    · rw [hres' e.1 e.2, if_pos he, if_neg (pedges_not_rev hnd e.1 e.2 he), hfle]
      omega

theorem ekIter_critical {capacity : Mat} {n source sink : Nat}
    (hsn : source < n) (hns : sink ≠ source) (k : Nat)
    (hflag : (ekIter capacity n source sink (k + 1)).2 = true) :
    ∃ a b da, a < n ∧ b < n ∧ da + 1 < n ∧
      PathDist (ekIter capacity n source sink k).1.residual n source a da ∧
      PathDist (ekIter capacity n source sink k).1.residual n source b (da + 1) ∧
      0 < (ekIter capacity n source sink k).1.residual a b ∧
      (ekIter capacity n source sink (k + 1)).1.residual a b ≤ 0 := by
  rcases @ekIter_succ_cases capacity n source sink k
    with ⟨heq, hf⟩ | ⟨_, hstep⟩
  · rw [heq] at hflag
    rw [hflag] at hf
    exact absurd hf (by simp)
  · rcases hpair : ekIter capacity n source sink (k + 1) with ⟨st', c⟩
    rw [hpair] at hstep hflag
    have hc : c = true := hflag
    subst hc
    exact ekStep_critical hsn hns hstep

theorem critical_dist_gap {capacity : Mat} {n source sink : Nat}
    (hsn : source < n) (hns : sink ≠ source) {a b da da' : Nat} {k k' : Nat}
    (hkk : k < k')
    (hdb : PathDist (ekIter capacity n source sink k).1.residual n source b (da + 1))
    (hdead : (ekIter capacity n source sink (k + 1)).1.residual a b ≤ 0)
    (hda' : PathDist (ekIter capacity n source sink k').1.residual n source a da')
    (halive : 0 < (ekIter capacity n source sink k').1.residual a b) :
    da + 2 ≤ da' := by
  obtain ⟨m, hm1, hm2, hminc⟩ :=
    @ekIter_revival capacity n source sink a b k' (k + 1) (by omega) hdead halive
  obtain ⟨dy, hdy_b, hdy_a⟩ := ekIter_increase hsn hns m hminc
  obtain ⟨d₁, hd₁, hle₁⟩ := ekIter_dist_mono hsn hns k m (by omega) dy b hdy_b
  have heq₁ : d₁ = da + 1 := pathDist_unique hd₁ hdb
  obtain ⟨d₂, hd₂, hle₂⟩ := ekIter_dist_mono hsn hns m k' (by omega) da' a hda'
  have heq₂ : d₂ = dy + 1 := pathDist_unique hd₂ hdy_a
  omega

theorem ek_polynomial_bound (capacity : Mat) {n source sink : Nat}
    (hsn : source < n) (hns : sink ≠ source) :
    ∃ k, k ≤ n * n * n + 1 ∧ (ekIter capacity n source sink k).2 = false := by
  by_contra hcon
  push_neg at hcon
  have hflag : ∀ k, k ≤ n * n * n + 1 → (ekIter capacity n source sink k).2 = true := by
    intro k hk
    cases h : (ekIter capacity n source sink k).2
    · exact absurd h (hcon k hk)
    · rfl
  have hdata : ∀ k, ∃ a b da,
      k < n * n * n + 1 →
        a < n ∧ b < n ∧ da + 1 < n ∧
        PathDist (ekIter capacity n source sink k).1.residual n source a da ∧
        PathDist (ekIter capacity n source sink k).1.residual n source b (da + 1) ∧
        0 < (ekIter capacity n source sink k).1.residual a b ∧
        (ekIter capacity n source sink (k + 1)).1.residual a b ≤ 0 := by
    intro k
    by_cases hk : k < n * n * n + 1
    · obtain ⟨a, b, da, h⟩ := ekIter_critical hsn hns k (hflag (k + 1) (by omega))
      exact ⟨a, b, da, fun _ => h⟩
    · exact ⟨0, 0, 0, fun h => absurd h hk⟩
  choose fa fb fda hP using hdata
  have hmap : ∀ k ∈ Finset.range (n * n * n + 1),
      (fa k, fb k) ∈ Finset.range n ×ˢ Finset.range n := by
    intro k hk
    obtain ⟨h1, h2, _⟩ := hP k (Finset.mem_range.mp hk)
    exact Finset.mem_product.mpr ⟨Finset.mem_range.mpr h1, Finset.mem_range.mpr h2⟩
  have hltc : (Finset.range n ×ˢ Finset.range n).card * n
      < (Finset.range (n * n * n + 1)).card := by
    rw [Finset.card_product, Finset.card_range, Finset.card_range]
    omega
  obtain ⟨y, hy, hcard⟩ := Finset.exists_lt_card_fiber_of_mul_lt_card_of_maps_to hmap hltc
  have hcard2 : n <
      (Finset.filter (fun x => (fa x, fb x) = y) (Finset.range (n * n * n + 1))).card := hcard
  have hgap : ∀ k ∈ Finset.range (n * n * n + 1), (fa k, fb k) = y →
      ∀ k' ∈ Finset.range (n * n * n + 1), (fa k', fb k') = y →
      k < k' → fda k + 2 ≤ fda k' := by
    intro k hk hky k' hk' hk'y hklt
    have hkm := Finset.mem_range.mp hk
    have hk'm := Finset.mem_range.mp hk'
    obtain ⟨_, _, _, _, hdb_k, _, hdead_k⟩ := hP k hkm
    obtain ⟨_, _, _, hda_k', _, halive_k', _⟩ := hP k' hk'm
    have hpq : (fa k, fb k) = (fa k', fb k') := hky.trans hk'y.symm
    injection hpq with hfa hfb
    rw [← hfa] at hda_k'
    rw [← hfa, ← hfb] at halive_k'
    exact critical_dist_gap hsn hns hklt hdb_k hdead_k hda_k' halive_k'
  have hle : (Finset.filter (fun x => (fa x, fb x) = y)
      (Finset.range (n * n * n + 1))).card ≤ (Finset.range n).card := by
    apply Finset.card_le_card_of_injOn fda
    · intro k hkF
      have hkm := Finset.mem_range.mp (Finset.mem_filter.mp hkF).1
      obtain ⟨_, _, h3, _⟩ := hP k hkm
      exact Finset.mem_range.mpr (by omega)
    · intro k hkF k' hk'F heq
      by_contra hne
      have hkF2 := Finset.mem_filter.mp (Finset.mem_coe.mp hkF)
      have hk'F2 := Finset.mem_filter.mp (Finset.mem_coe.mp hk'F)
      rcases Nat.lt_or_ge k k' with h | h
      · have := hgap k hkF2.1 hkF2.2 k' hk'F2.1 hk'F2.2 h
        omega
      · have hlt2 : k' < k := by omega
        have := hgap k' hk'F2.1 hk'F2.2 k hkF2.1 hkF2.2 hlt2
        omega
  rw [Finset.card_range] at hle
  omega

/-- C4: for every valid input (square non-negative integer capacities, in-range
source and sink, source distinct from sink) the main loop of `edmonds_karp`
terminates after at most `n * n * n + 1` BFS-selected augmentation rounds: some
iterate within that polynomial bound already carries the terminated flag. -/
theorem C4_polynomial_termination {capacity : Mat} {n source sink : Nat}
    (hval : ValidInput capacity n source sink) :
    ∃ k, k ≤ n * n * n + 1 ∧ (ekIter capacity n source sink k).2 = false := by
  obtain ⟨hnn, hsn, htn, hst⟩ := hval
  exact ek_polynomial_bound capacity hsn (fun h => hst h.symm)

theorem C4_polynomial_termination_witness :
    ValidInput (matOf [[0, 2], [0, 0]]) 2 0 1 ∧
    ∃ k, k ≤ 2 * 2 * 2 + 1 ∧ (ekIter (matOf [[0, 2], [0, 0]]) 2 0 1 k).2 = false := by
  have hval : ValidInput (matOf [[0, 2], [0, 0]]) 2 0 1 := by
    refine ⟨?_, by decide, by decide, by decide⟩
    intro u v hu hv
    interval_cases u <;> interval_cases v <;> decide
  exact ⟨hval, C4_polynomial_termination hval⟩
